import Mathlib

/-!
A shallow embedding of `src/tpexternal.c` (the C version of the GAP function
`TransversalProperty`), together with a verification of the behavioural
properties claimed for it.

Modelling conventions:
* C integer lists indexed `1..n` become total functions `Nat → Nat` (or
  `Nat → Bool` for boolean lists), read only at indices the C code reads;
  in-place writes become pointwise functional update (`updf`).
* A fatal error (`exit(EXIT_FAILURE)`) and undefined behaviour are both
  modelled as `none` of an `Option` result type.
* The recursion of `TransversalProperty` is indexed by an explicit fuel
  parameter; one unit of fuel is consumed per call, so "the call tree has
  depth at most `d`" corresponds to "`fuel = d` returns `some _`".
* The mutable partition buffer `A` is threaded through the computation, and
  the checker returns the buffer as the caller observes it on return.
-/

namespace TPExternal

/-- Pointwise update of a total function: models an in-place write to one
cell of a C array (`A[r] = i`, `Rnew[kpoint] = true`, `covered[part] = true`). -/
def updf {α : Type} (f : Nat → α) (a : Nat) (b : α) : Nat → α :=
  fun x => if x = a then b else f x

/-- `IntList` (tpexternal.c:23-39): allocating a list of negative length is a
fatal process abort (modelled `none`); otherwise an uninitialized list of the
given length is returned, of which only the length is observable in a pure
embedding.  A `malloc` failure, also a fatal abort in the source, has no
counterpart in a memoryless embedding. -/
def IntList (length : Int) : Option Int :=
  if length < 0 then none else some length

/-- The multiplicative recursion of `Binomial` (tpexternal.c:67-69):
`Binomial(n,0) = 1`, `Binomial(n,k) = Binomial(n-1,k-1)*n/k` with C `int`
division.  The recursion depth `k` is carried as the `Nat` argument `kk`
(so the definition is structurally recursive and kernel-computable); the
guard of tpexternal.c:62 is checked once in `Binomial` below: when it passes
(`0 ≤ k ≤ n`) the guard of every recursive call `Binomial(n-1,k-1)` also
passes (`n-1 ≥ k-1 ≥ 0`), so checking it once is faithful to the source. -/
def binomGo : Nat → Int → Int
  | 0, _ => 1
  | kk+1, n => Int.tdiv (binomGo kk (n-1) * n) (kk+1)

/-- `Binomial` (tpexternal.c:59-70): for `n ≥ k ≥ 0` the number of k-subsets
of an n-set; `n < k` or `k < 0` is a fatal abort (`none`). -/
def Binomial (n k : Int) : Option Int :=
  if n < k ∨ k < 0 then none else some (binomGo k.toNat n)

/-- The successor step of `Combinations` (tpexternal.c:98-109): scan the
positions of the previous combination from the last one backwards (here: try
the tail first) for the rightmost position `j` whose entry is still below its
maximum `n-(k-j)` (the number of later positions is `rest.length = k-j`);
copy the entries before `j`, increment position `j`, and refill the positions
from `j` on with consecutive integers.  If no position can be incremented the
inner `for` loop of the C code falls through without building a combination;
this exhaustion is modelled as `none`. -/
def combSuccAux (n : Nat) : List Nat → Option (List Nat)
  | [] => none
  | x :: rest =>
    match combSuccAux n rest with
    | some rest2 => some (x :: rest2)
    | none =>
      if x < n - rest.length then some (List.range' (x+1) (rest.length + 1))
      else none

/-- The generation loop of `Combinations` (tpexternal.c:90-110): starting from
a current combination, emit `m` combinations, each obtained from the previous
one by `combSuccAux`.  If the successor is ever taken of the last combination
the C code leaves `comb[i]` uninitialized; the junk entries are modelled as
`[]` (proved unreachable for the actual call). -/
def combStream (n : Nat) : List Nat → Nat → List (List Nat)
  | _, 0 => []
  | cur, m+1 =>
    cur :: (match combSuccAux n cur with
            | some nxt => combStream n nxt m
            | none => List.replicate m [])

/-- `Combinations` (tpexternal.c:72-112): the list, in lex order and indexed
from 1 in the source, of the k-subsets of `{1,...,n}` as increasing lists.
The guard `n < k || k < 0` of tpexternal.c:79 is a fatal abort (`k < 0` cannot
arise for `Nat` arguments); the number of combinations produced is the value
of `Binomial(n,k)`, exactly as in the source, and the first combination is
`{1,...,k}` (tpexternal.c:91-93). -/
def Combinations (n k : Nat) : Option (List (List Nat)) :=
  if n < k then none
  else
    match Binomial (n : Int) (k : Int) with
    | none => none
    | some b => some (combStream n (List.range' 1 k) b.toNat)

/-- Length of the sublist of `l` on which `f` holds. -/
def countOn (l : List Nat) (f : Nat → Bool) : Nat := (l.filter f).length

/-- `Acount` (tpexternal.c:166-171): the number of points `i ∈ {1,...,n}`
with `A[i] < k`, i.e. assigned to one of the first `k-1` parts. -/
def countUnder (n k : Nat) (A : Nat → Nat) : Nat :=
  countOn (List.range' 1 n) (fun i => decide (A i < k))

/-- `Rnewcount` as initialized at tpexternal.c:167-175: the number of points
`i ∈ {1,...,n}` with `R[i]` true. -/
def countTrue (n : Nat) (R : Nat → Bool) : Nat :=
  countOn (List.range' 1 n) R

/-- The inner `j`-loop of the checker (tpexternal.c:191-206) over the listed
positions `js` (`j = 1,...,k-1` in the source): look up the part of the
image under the coset representative `cr` of the `j`-th point of the
(k-1)-subset `c`; a part hit twice means the candidate is not injective
(`none`); a point of part `k` becomes `kpoint`.  Result `some kpoint` means
the loop ran to completion (`injective` stayed true), where
`kpoint : Option Nat` is `none` exactly when the C variable `kpoint` was
never assigned (the C code would then read uninitialized memory at
tpexternal.c:210; the caller treats that as undefined behaviour). -/
def candLoop (k : Nat) (A cr c : Nat → Nat) :
    List Nat → (Nat → Bool) → Option Nat → Option (Option Nat)
  | [], _, kpoint => some kpoint
  | j :: js, covered, kpoint =>
    if covered (A (cr (c j))) then none
    else candLoop k A cr c js (updf covered (A (cr (c j))) true)
           (if A (cr (c j)) = k then some (cr (c j)) else kpoint)

/-- One candidate k-subset (tpexternal.c:185-206): the `covered` array starts
all false, the part of `newpoint` is marked covered (tpexternal.c:188), and
`kpoint` starts as `newpoint` when `A[newpoint] = k` (tpexternal.c:189-190);
then the `j`-loop runs over `j = 1,...,k-1`. -/
def candScan (k : Nat) (A cr c : Nat → Nat) (np : Nat) : Option (Option Nat) :=
  candLoop k A cr c (List.range' 1 (k-1))
    (updf (fun _ => false) (A np) true)
    (if A np = k then some np else none)

/-- The adjacency scan (tpexternal.c:178-222) over the remaining adjacency
entries, carrying the working forced set `Rnew` and its count: a
non-injective candidate is skipped; an injective candidate whose `kpoint` is
not yet in `Rnew` adds it, and immediately afterwards the early-success test
`(Acount+Rnewcount)*k > (k-1)*n` (tpexternal.c:214) may return `true` for the
whole call (`Sum.inr true`).  Otherwise the final `(Rnew, Rnewcount)` is
returned (`Sum.inl`).  `none` models the undefined behaviour of reading an
unassigned `kpoint`. -/
def adjScan (n k : Nat) (cr : Nat → Nat) (comb : Nat → Nat → Nat) (A : Nat → Nat)
    (np ac : Nat) : List Nat → (Nat → Bool) → Nat → Option ((Nat → Bool) × Nat ⊕ Bool)
  | [], Rnew, cnt => some (Sum.inl (Rnew, cnt))
  | a :: rest, Rnew, cnt =>
    match candScan k A cr (comb a) np with
    | none => adjScan n k cr comb A np ac rest Rnew cnt
    | some none => none
    | some (some kp) =>
      if Rnew kp then adjScan n k cr comb A np ac rest Rnew cnt
      else
        if (ac + (cnt + 1)) * k > (k - 1) * n then some (Sum.inr true)
        else adjScan n k cr comb A np ac rest (updf Rnew kp true) (cnt + 1)

/-- The branching loop (tpexternal.c:240-251) over the remaining part labels
`is` (`i = 1,...,k-1` in the source), with the partition buffer `A` threaded
through: set `A[r] = i`, recurse (through the supplied `tp`, the checker one
fuel level down); a false sub-result is returned immediately, with the buffer
exactly as the sub-call left it (the C code does not restore `A[r]` on this
path); after a true sub-result `A[r]` is set back to `k` and the next label
is tried; if all labels succeed the call returns true (tpexternal.c:254). -/
def branchLoopAux (tp : (Nat → Nat) → (Nat → Bool) → Nat → Option (Bool × (Nat → Nat)))
    (r k : Nat) (R2 : Nat → Bool) : List Nat → (Nat → Nat) → Option (Bool × (Nat → Nat))
  | [], A => some (true, A)
  | i :: is, A =>
    match tp (updf A r i) R2 r with
    | none => none
    | some (false, A2) => some (false, A2)
    | some (true, A2) => branchLoopAux tp r k R2 is (updf A2 r k)

/-- `TransversalProperty` (tpexternal.c:114-255).  `fuel` bounds the depth of
the call tree (`none` = fuel exhausted, or undefined behaviour inside the
call); the result pairs the boolean with the partition buffer as the caller
observes it after the call.  Per call: count `Acount` and copy `R` into
`Rnew` with its count (tpexternal.c:166-175), scan the adjacency list of
`newpoint`'s coset representative (possibly returning true early), return
false if the forced count is zero (tpexternal.c:223-228), otherwise remove
the first forced point `r` (tpexternal.c:229-237) and run the branching loop
over the part labels `1,...,k-1`. -/
def TransversalProperty : Nat → Nat → Nat → (Nat → Nat → Nat) → List Nat →
    (Nat → Nat → Nat) → (Nat → Nat) → (Nat → Bool) → Nat → Option (Bool × (Nat → Nat))
  | 0, _, _, _, _, _, _, _, _ => none
  | fuel+1, n, k, cosetreps, adj, comb, A, R, newpoint =>
    match adjScan n k (cosetreps newpoint) comb A newpoint (countUnder n k A)
            adj R (countTrue n R) with
    | none => none
    | some (Sum.inr b) => some (b, A)
    | some (Sum.inl (Rnew1, cnt1)) =>
      if cnt1 = 0 then some (false, A)
      else
        match (List.range' 1 n).find? (fun i => Rnew1 i) with
        | none => none
        | some r =>
          branchLoopAux
            (fun A2 R2 np2 => TransversalProperty fuel n k cosetreps adj comb A2 R2 np2)
            r k (updf Rnew1 r false) (List.range' 1 (k-1)) A

/-- Seeding of the trial partition (tpexternal.c:299-305): every point starts
in part `k`, then the `i`-th point of the short representative is put in part
`i`. -/
def assignAux : (Nat → Nat) → List Nat → Nat → (Nat → Nat)
  | A, [], _ => A
  | A, p :: rest, i => assignAux (updf A p i) rest (i+1)

/-- The partition buffer `A` as `main` prepares it for one trial. -/
def assignShortrep (k : Nat) (sr : List Nat) : Nat → Nat :=
  assignAux (fun _ => k) sr 1

/-- The trial loop of `main` (tpexternal.c:296-310), over the list of short
representatives read from the input: a zero-length representative stops the
loop with the current `result`; otherwise the checker runs on the freshly
seeded `A` and all-false `R` with `newpoint = shortrep[1]`, and a false
result breaks out of the loop.  The returned boolean is what `main` prints
(`1` for true, `0` for false, tpexternal.c:311) before exiting with status 0;
`none` models an exhausted input stream (`scanf` failing) or a failure inside
the checker. -/
def trialLoop (fuel n k : Nat) (cosetreps : Nat → Nat → Nat) (adj : List Nat)
    (comb : Nat → Nat → Nat) : List (List Nat) → Bool → Option Bool
  | [], _ => none
  | sr :: rest, result =>
    if sr.length = 0 then some result
    else
      match TransversalProperty fuel n k cosetreps adj comb
              (assignShortrep k sr) (fun _ => false) (sr.headD 0) with
      | none => none
      | some (res, _) =>
        if res then trialLoop fuel n k cosetreps adj comb rest res
        else some res

/-- The `(k-1)`-subset table built by `main` (tpexternal.c:289): 1-based
lookup `comb[a][j]` into `Combinations n (k-1)`. -/
def combTable (n km1 : Nat) : Nat → Nat → Nat :=
  fun a j =>
    match Combinations n km1 with
    | some out => (out.getD (a - 1) []).getD (j - 1) 0
    | none => 0

/-- `main` (tpexternal.c:257-313) after parsing: `2 ≤ k ≤ n` is checked
fatally (tpexternal.c:275-279), the `(k-1)`-subset table is built, `result`
starts `true`, and the trial loop runs; the returned boolean is printed as
`1`/`0` and the process exits with status 0. -/
def mainRun (fuel n k : Nat) (cosetreps : Nat → Nat → Nat) (adj : List Nat)
    (trials : List (List Nat)) : Option Bool :=
  if k < 2 ∨ n < k then none
  else trialLoop fuel n k cosetreps adj (combTable n (k - 1)) trials true

/-- Projection used to state facts about the final count of an adjacency
scan that ran to completion. -/
def adjScanCount (x : Option ((Nat → Bool) × Nat ⊕ Bool)) : Option Nat :=
  match x with
  | some (Sum.inl (_, c)) => some c
  | _ => none

/-! ### Concrete instances used in counterexamples and witnesses

All of them are genuine inputs for the checker: `crepsCyc4` (resp.
`crepsCyc6`) is the coset-representative table of the cyclic group generated
by the n-cycle `(1 2 ... n)` for `n = 4` (resp. `6`), with `cosetreps[p]`
the power mapping `1` to `p`; `combOne a j` is the table of 1-subsets of
`{1,...,n}` in lex order (`comb[a] = [a]`), which is `Combinations n 1` as
`main` builds it for `k = 2`. -/

/-- Coset representatives for the cyclic group of order 4: `p j ↦ g^(p-1)(j)`
for `g = (1 2 3 4)` in image form. -/
def crepsCyc4 : Nat → Nat → Nat := fun p j => (j + p - 2) % 4 + 1

/-- Coset representatives for the cyclic group of order 6. -/
def crepsCyc6 : Nat → Nat → Nat := fun p j => (j + p - 2) % 6 + 1

/-- The table of 1-subsets in lex order: `comb[a] = [a]`. -/
def combOne : Nat → Nat → Nat := fun a j => if j = 1 then a else 0

/-- Partition of `{1,...,4}` (or `{1,...,6}`) with point 1 in part 1 and all
other points in part 2. -/
def partFirst : Nat → Nat := fun i => if i = 1 then 1 else 2

/-- Partition of `{1,...,4}` with points 1, 2 in part 1, the rest in part 2. -/
def partTwo : Nat → Nat := fun i => if i ≤ 2 then 1 else 2

/-- The subset `{2, 4}` as a boolean list. -/
def setR24 : Nat → Bool := fun s => decide (s = 2) || decide (s = 4)

/-! ### Validity predicate for combinations, used in the analysis of
`Combinations` -/

/-- `IncB n lo c`: the list `c` is strictly increasing with all entries in
`[lo, n]`.  `IncB n 1 c ∧ c.length = k` says exactly that `c` is a k-subset
of `{1,...,n}` written in increasing order. -/
def IncB (n : Nat) : Nat → List Nat → Prop
  | _, [] => True
  | lo, x :: rest => lo ≤ x ∧ x ≤ n ∧ IncB n (x+1) rest

/-! ## Supporting lemmas -/

/-- Unfolding of one level of the checker. -/
theorem TP_succ (fuel n k : Nat) (creps : Nat → Nat → Nat) (adj : List Nat)
    (comb : Nat → Nat → Nat) (A : Nat → Nat) (R : Nat → Bool) (np : Nat) :
    TransversalProperty (fuel+1) n k creps adj comb A R np =
      match adjScan n k (creps np) comb A np (countUnder n k A) adj R (countTrue n R) with
      | none => none
      | some (Sum.inr b) => some (b, A)
      | some (Sum.inl (Rnew1, cnt1)) =>
        if cnt1 = 0 then some (false, A)
        else
          match (List.range' 1 n).find? (fun i => Rnew1 i) with
          | none => none
          | some r =>
            branchLoopAux
              (fun A2 R2 np2 => TransversalProperty fuel n k creps adj comb A2 R2 np2)
              r k (updf Rnew1 r false) (List.range' 1 (k-1)) A := rfl

/-- The adjacency scan over a concatenation: an early `true` (or undefined
behaviour) in the first block makes the second block irrelevant. -/
theorem adjScan_append (n k : Nat) (cr : Nat → Nat) (comb : Nat → Nat → Nat)
    (A : Nat → Nat) (np ac : Nat) :
    ∀ (l1 l2 : List Nat) (Rnew : Nat → Bool) (cnt : Nat),
      adjScan n k cr comb A np ac (l1 ++ l2) Rnew cnt =
        match adjScan n k cr comb A np ac l1 Rnew cnt with
        | some (Sum.inl (R1, c1)) => adjScan n k cr comb A np ac l2 R1 c1
        | x => x := by
  intro l1
  induction l1 with
  | nil => intro l2 Rnew cnt; rfl
  | cons a l1 ih =>
    intro l2 Rnew cnt
    show (match candScan k A cr (comb a) np with
          | none => adjScan n k cr comb A np ac (l1 ++ l2) Rnew cnt
          | some none => none
          | some (some kp) =>
            if Rnew kp then adjScan n k cr comb A np ac (l1 ++ l2) Rnew cnt
            else
              if (ac + (cnt + 1)) * k > (k - 1) * n then some (Sum.inr true)
              else adjScan n k cr comb A np ac (l1 ++ l2) (updf Rnew kp true) (cnt + 1)) = _
    cases hc : candScan k A cr (comb a) np with
    | none => simpa [adjScan, hc] using ih l2 Rnew cnt
    | some kp0 =>
      cases kp0 with
      | none => simp [adjScan, hc]
      | some kp =>
        by_cases hin : Rnew kp
        · simpa [adjScan, hc, hin] using ih l2 Rnew cnt
        · by_cases hgt : (ac + (cnt + 1)) * k > (k - 1) * n
          · simp [adjScan, hc, hin, hgt]
          · simpa [adjScan, hc, hin, hgt] using ih l2 (updf Rnew kp true) (cnt + 1)

/-- The value of the C `Binomial` recursion is the binomial coefficient. -/
theorem binomGo_choose : ∀ (kk n : Nat), kk ≤ n →
    binomGo kk (n : Int) = ((n.choose kk : Nat) : Int) := by
  intro kk
  induction kk with
  | zero => intro n _; simp [binomGo]
  | succ kk ih =>
    intro n hk
    have hn1 : (1:Nat) ≤ n := le_trans (Nat.succ_le_succ (Nat.zero_le _)) hk
    have hcast : ((n : Int) - 1) = ((n - 1 : Nat) : Int) := by
      omega
    have hrec : binomGo kk ((n : Int) - 1) = (((n-1).choose kk : Nat) : Int) := by
      rw [hcast]; exact ih (n-1) (by omega)
    have hkey : (n-1).choose kk * n = n.choose (kk+1) * (kk+1) := by
      have h := Nat.succ_mul_choose_eq (n-1) kk
      have : Nat.succ (n-1) = n := by omega
      rw [this] at h
      calc (n-1).choose kk * n = n * (n-1).choose kk := Nat.mul_comm _ _
        _ = n.choose (kk+1) * (kk+1) := h
    show Int.tdiv (binomGo kk ((n:Int) - 1) * (n:Int)) ((kk:Int)+1) = _
    rw [hrec]
    have hm : (((n-1).choose kk : Nat) : Int) * (n : Int) = (((n-1).choose kk * n : Nat) : Int) :=
      (Nat.cast_mul _ _).symm
    rw [hm, hkey]
    have hdiv : (n.choose (kk+1) * (kk+1)) / (kk+1) = n.choose (kk+1) :=
      Nat.mul_div_cancel _ (Nat.succ_pos kk)
    have hc : ((kk : Int) + 1) = ((kk + 1 : Nat) : Int) := by omega
    rw [hc, ← Int.ofNat_tdiv, hdiv]

/-- On its legal domain `0 ≤ k ≤ n` the C `Binomial` computes `n.choose k`
(in particular the repeated integer division never loses information). -/
theorem Binomial_eq_choose (n k : Nat) (h : k ≤ n) :
    Binomial (n : Int) (k : Int) = some ((n.choose k : Nat) : Int) := by
  unfold Binomial
  rw [if_neg (by omega)]
  rw [Int.toNat_natCast]
  exact congrArg some (binomGo_choose k n h)

theorem updf_same {α : Type} (f : Nat → α) (a : Nat) (b : α) : updf f a b a = b := by
  simp [updf]

theorem updf_other {α : Type} (f : Nat → α) {a x : Nat} (b : α) (h : x ≠ a) :
    updf f a b x = f x := by
  simp [updf, h]

theorem updf_updf {α : Type} (f : Nat → α) (a : Nat) (b c : α) :
    updf (updf f a b) a c = updf f a c := by
  funext x
  by_cases h : x = a <;> simp [updf, h]

theorem updf_self {α : Type} (f : Nat → α) (a : Nat) : updf f a (f a) = f := by
  funext x
  by_cases h : x = a <;> simp [updf, h]

/-- A `kpoint` delivered by the inner loop is a point of part `k`: the loop
only assigns `kpoint` at tpexternal.c:189-190 and 203-204, in both cases to
a point whose `A`-value is `k`. -/
theorem candLoop_kp (k : Nat) (A cr c : Nat → Nat) :
    ∀ (js : List Nat) (covered : Nat → Bool) (kpoint : Option Nat) (kp : Nat),
      (∀ x, kpoint = some x → A x = k) →
      candLoop k A cr c js covered kpoint = some (some kp) → A kp = k := by
  intro js
  induction js with
  | nil =>
    intro covered kpoint kp hk h
    exact hk kp (by injection h)
  | cons j js ih =>
    intro covered kpoint kp hk h
    by_cases hc : covered (A (cr (c j)))
    · simp [candLoop, hc] at h
    · rw [show candLoop k A cr c (j :: js) covered kpoint =
            candLoop k A cr c js (updf covered (A (cr (c j))) true)
              (if A (cr (c j)) = k then some (cr (c j)) else kpoint) from by
            simp [candLoop, hc]] at h
      refine ih _ _ kp ?_ h
      intro x hx
      by_cases hpk : A (cr (c j)) = k
      · rw [if_pos hpk] at hx
        injection hx with hx2
        rw [← hx2]; exact hpk
      · rw [if_neg hpk] at hx
        exact hk x hx

/-- A `kpoint` delivered by a full candidate scan is a point of part `k`. -/
theorem candScan_kp (k : Nat) (A cr c : Nat → Nat) (np kp : Nat) :
    candScan k A cr c np = some (some kp) → A kp = k := by
  intro h
  refine candLoop_kp k A cr c _ _ _ kp ?_ h
  intro x hx
  by_cases hnp : A np = k
  · rw [if_pos hnp] at hx; injection hx with hx2; rw [← hx2]; exact hnp
  · rw [if_neg hnp] at hx; exact Option.noConfusion hx

/-- The adjacency scan preserves the invariant that every point of the
working forced set lies in part `k` of `A`. -/
theorem adjScan_kset (n k : Nat) (cr : Nat → Nat) (comb : Nat → Nat → Nat)
    (A : Nat → Nat) (np ac : Nat) :
    ∀ (l : List Nat) (Rnew : Nat → Bool) (cnt : Nat) (R1 : Nat → Bool) (c1 : Nat),
      (∀ s, Rnew s = true → A s = k) →
      adjScan n k cr comb A np ac l Rnew cnt = some (Sum.inl (R1, c1)) →
      ∀ s, R1 s = true → A s = k := by
  intro l
  induction l with
  | nil =>
    intro Rnew cnt R1 c1 hR h
    simp [adjScan] at h
    rw [← h.1]
    exact hR
  | cons a l ih =>
    intro Rnew cnt R1 c1 hR h
    cases hc : candScan k A cr (comb a) np with
    | none =>
      rw [show adjScan n k cr comb A np ac (a :: l) Rnew cnt =
            adjScan n k cr comb A np ac l Rnew cnt from by simp [adjScan, hc]] at h
      exact ih Rnew cnt R1 c1 hR h
    | some kp0 =>
      cases kp0 with
      | none => simp [adjScan, hc] at h
      | some kp =>
        by_cases hin : Rnew kp
        · rw [show adjScan n k cr comb A np ac (a :: l) Rnew cnt =
                adjScan n k cr comb A np ac l Rnew cnt from by simp [adjScan, hc, hin]] at h
          exact ih Rnew cnt R1 c1 hR h
        · by_cases hgt : (ac + (cnt + 1)) * k > (k - 1) * n
          · simp [adjScan, hc, hin, hgt] at h
          · rw [show adjScan n k cr comb A np ac (a :: l) Rnew cnt =
                  adjScan n k cr comb A np ac l (updf Rnew kp true) (cnt + 1) from by
                  simp [adjScan, hc, hin, hgt]] at h
            refine ih _ _ R1 c1 ?_ h
            intro s hs
            by_cases hskp : s = kp
            · rw [hskp]; exact candScan_kp k A cr (comb a) np kp hc
            · rw [updf_other _ _ hskp] at hs
              exact hR s hs

/-- Restoration through the branching loop: provided the checker one level
down restores the buffer on a true result, a completed branching loop leaves
the buffer equal to its input except possibly for the cell `r`, which is
written back to `k`. -/
theorem branchLoop_restore
    (tp : (Nat → Nat) → (Nat → Bool) → Nat → Option (Bool × (Nat → Nat)))
    (r k : Nat) (R2 : Nat → Bool)
    (htp : ∀ (A1 A3 : Nat → Nat),
      (∀ s, R2 s = true → A1 s = k) → tp A1 R2 r = some (true, A3) → A3 = A1)
    (hR2r : R2 r = false) :
    ∀ (js : List Nat) (A0 A2 : Nat → Nat),
      (∀ s, R2 s = true → A0 s = k) →
      branchLoopAux tp r k R2 js A0 = some (true, A2) →
      A2 = A0 ∨ A2 = updf A0 r k := by
  intro js
  induction js with
  | nil =>
    intro A0 A2 hA h
    left
    simp [branchLoopAux] at h
    exact h.symm
  | cons i is ih =>
    intro A0 A2 hA h
    cases htc : tp (updf A0 r i) R2 r with
    | none => simp [branchLoopAux, htc] at h
    | some p =>
      obtain ⟨b, A3⟩ := p
      cases b with
      | false => simp [branchLoopAux, htc] at h
      | true =>
        rw [show branchLoopAux tp r k R2 (i :: is) A0 =
              branchLoopAux tp r k R2 is (updf A3 r k) from by
              simp [branchLoopAux, htc]] at h
        have hA3 : A3 = updf A0 r i := by
          refine htp (updf A0 r i) A3 ?_ htc
          intro s hs
          have hsr : s ≠ r := by
            intro hsr; rw [hsr, hR2r] at hs; exact Bool.noConfusion hs
          rw [updf_other _ _ hsr]
          exact hA s hs
        rw [hA3, updf_updf] at h
        have hA2 : ∀ s, R2 s = true → updf A0 r k s = k := by
          intro s hs
          by_cases hsr : s = r
          · rw [hsr, updf_same]
          · rw [updf_other _ _ hsr]; exact hA s hs
        rcases ih (updf A0 r k) A2 hA2 h with h1 | h1
        · right; exact h1
        · right; rw [h1, updf_updf]

/-- The checker restores the partition buffer whenever it returns `true`
(given the invariant that the forced set it receives lies inside part `k`):
the early return true at tpexternal.c:218 happens before any write to `A`,
and the loop at tpexternal.c:240-251 writes `A[r] = k` back after every
successful branch before returning true at tpexternal.c:254. -/
theorem tp_restore_aux :
    ∀ (fuel n k : Nat) (creps : Nat → Nat → Nat) (adj : List Nat)
      (comb : Nat → Nat → Nat) (A : Nat → Nat) (R : Nat → Bool) (np : Nat)
      (A2 : Nat → Nat),
      (∀ s, R s = true → A s = k) →
      TransversalProperty fuel n k creps adj comb A R np = some (true, A2) →
      A2 = A := by
  intro fuel
  induction fuel with
  | zero => intro n k creps adj comb A R np A2 _ h; exact Option.noConfusion h
  | succ fuel ih =>
    intro n k creps adj comb A R np A2 hR h
    rw [TP_succ] at h
    cases hscan : adjScan n k (creps np) comb A np (countUnder n k A) adj R (countTrue n R) with
    | none => rw [hscan] at h; exact Option.noConfusion h
    | some x =>
      rw [hscan] at h
      cases x with
      | inr b =>
        simp at h
        exact h.2.symm
      | inl p =>
        obtain ⟨R1, c1⟩ := p
        replace h : (if c1 = 0 then some (false, A)
            else match (List.range' 1 n).find? (fun i => R1 i) with
              | none => none
              | some r =>
                branchLoopAux
                  (fun A3 R3 np3 => TransversalProperty fuel n k creps adj comb A3 R3 np3)
                  r k (updf R1 r false) (List.range' 1 (k-1)) A) = some (true, A2) := h
        by_cases hc0 : c1 = 0
        · rw [if_pos hc0] at h; simp at h
        · rw [if_neg hc0] at h
          cases hfind : (List.range' 1 n).find? (fun i => R1 i) with
          | none => rw [hfind] at h; exact Option.noConfusion h
          | some r =>
            rw [hfind] at h
            have hR1 : ∀ s, R1 s = true → A s = k :=
              adjScan_kset n k (creps np) comb A np (countUnder n k A) adj R
                (countTrue n R) R1 c1 hR hscan
            have hr : A r = k := hR1 r (List.find?_some hfind)
            have hstep : ∀ s, updf R1 r false s = true → A s = k := by
              intro s hs
              by_cases hsr : s = r
              · rw [hsr, updf_same] at hs; exact Bool.noConfusion hs
              · rw [updf_other _ _ hsr] at hs; exact hR1 s hs
            rcases branchLoop_restore
                (fun A3 R3 np3 => TransversalProperty fuel n k creps adj comb A3 R3 np3)
                r k (updf R1 r false)
                (fun A1 A3 hA1 htp => ih n k creps adj comb A1 (updf R1 r false) r A3 hA1 htp)
                (updf_same R1 r false)
                (List.range' 1 (k-1)) A A2 hstep h with h1 | h1
            · exact h1
            · rw [h1, ← hr, updf_self]

/-- Flipping one predicate value from false to true on a duplicate-free list
raises the filter length by one. -/
theorem filter_length_flip (p q : Nat → Bool) (r : Nat) :
    ∀ (l : List Nat), l.Nodup → r ∈ l → p r = false → q r = true →
      (∀ x, x ≠ r → q x = p x) →
      (l.filter q).length = (l.filter p).length + 1 := by
  intro l
  induction l with
  | nil => intro _ hr _ _ _; exact absurd hr (List.not_mem_nil r)
  | cons a l ih =>
    intro hnd hr hp hq hagree
    have hnd2 := List.nodup_cons.mp hnd
    rcases List.mem_cons.mp hr with ha | ha
    · subst ha
      have hfil : l.filter q = l.filter p := by
        refine List.filter_congr ?_
        intro x hx
        exact hagree x (fun hxr => hnd2.1 (hxr ▸ hx))
      simp [List.filter_cons, hp, hq, hfil]
    · have har : a ≠ r := fun h => hnd2.1 (h ▸ ha)
      have hqa : q a = p a := hagree a har
      cases hpa : p a with
      | true => simp [List.filter_cons, hqa, hpa, ih hnd2.2 ha hp hq hagree]
      | false => simp [List.filter_cons, hqa, hpa, ih hnd2.2 ha hp hq hagree]

theorem countOn_le (l : List Nat) (f : Nat → Bool) : countOn l f ≤ l.length :=
  List.length_filter_le f l

theorem countUnder_pos (n k np : Nat) (A : Nat → Nat) (hnp : np ∈ List.range' 1 n)
    (hlt : A np < k) : 1 ≤ countUnder n k A := by
  have hmem : np ∈ (List.range' 1 n).filter (fun i => decide (A i < k)) :=
    List.mem_filter.mpr ⟨hnp, by simp [hlt]⟩
  exact List.length_pos_of_mem hmem

/-- Reassigning one point of part `k` (lying in `{1,...,n}`) to a part `< k`
raises `Acount` by one. -/
theorem countUnder_updf (n k r i : Nat) (A : Nat → Nat)
    (hr : r ∈ List.range' 1 n) (hAr : A r = k) (hik : i < k) :
    countUnder n k (updf A r i) = countUnder n k A + 1 := by
  unfold countUnder countOn
  refine filter_length_flip _ _ r (List.range' 1 n) (List.nodup_range' 1 n) hr ?_ ?_ ?_
  · simp [hAr]
  · simp [updf_same, hik]
  · intro x hx
    simp [updf_other A i hx]

/-- If the inner loop completes with every processed part inside `{1,...,k}`
and every part of `{1,...,k}` eventually covered, `kpoint` has been
assigned: the checker cannot hit the uninitialized read (the counting
argument behind tpexternal.c:183-184). -/
theorem candLoop_total (k : Nat) (A cr c : Nat → Nat) :
    ∀ (js : List Nat) (covered : Nat → Bool) (kpoint : Option Nat),
      (∀ x, covered x = true → x ∈ List.range' 1 k) →
      (covered k = true → ∃ x, kpoint = some x) →
      (∀ j ∈ js, A (cr (c j)) ∈ List.range' 1 k) →
      countOn (List.range' 1 k) covered + js.length = k →
      0 < k →
      candLoop k A cr c js covered kpoint ≠ some none := by
  intro js
  induction js with
  | nil =>
    intro covered kpoint hsupp hkp _ hcount hk
    have hfil : (List.range' 1 k).filter covered = List.range' 1 k := by
      refine List.Sublist.eq_of_length (List.filter_sublist _) ?_
      have : ((List.range' 1 k).filter covered).length = k := by
        have := hcount; simpa [countOn] using this
      simp [this]
    have hkmem : (k : Nat) ∈ (List.range' 1 k).filter covered := by
      rw [hfil]
      exact List.mem_range'_1.mpr ⟨hk, by omega⟩
    have hcov : covered k = true := (List.mem_filter.mp hkmem).2
    obtain ⟨x, hx⟩ := hkp hcov
    simp [candLoop, hx]
  | cons j js ih =>
    intro covered kpoint hsupp hkp hbound hcount hk
    cases hcov : covered (A (cr (c j))) with
    | true => simp [candLoop, hcov]
    | false =>
      rw [show candLoop k A cr c (j :: js) covered kpoint =
            candLoop k A cr c js (updf covered (A (cr (c j))) true)
              (if A (cr (c j)) = k then some (cr (c j)) else kpoint) from by
            simp [candLoop, hcov]]
      refine ih _ _ ?_ ?_ ?_ ?_ hk
      · intro x hx
        by_cases hxp : x = A (cr (c j))
        · rw [hxp]; exact hbound j (List.mem_cons_self j js)
        · rw [updf_other _ _ hxp] at hx
          exact hsupp x hx
      · intro hk2
        by_cases hpk : A (cr (c j)) = k
        · rw [if_pos hpk]; exact ⟨_, rfl⟩
        · rw [if_neg hpk]
          refine hkp ?_
          have hne : (k : Nat) ≠ A (cr (c j)) := fun h => hpk h.symm
          rw [updf_other _ _ hne] at hk2
          exact hk2
      · intro j2 hj2; exact hbound j2 (List.mem_cons_of_mem _ hj2)
      · have hflip := filter_length_flip covered (updf covered (A (cr (c j))) true)
          (A (cr (c j))) (List.range' 1 k) (List.nodup_range' 1 k)
          (hbound j (List.mem_cons_self j js)) hcov (updf_same _ _ _)
          (fun x hx => updf_other _ _ hx)
        have hcount2 := hcount
        simp [countOn, List.length_cons] at hcount2 ⊢
        omega

/-- The candidate scan never hits the uninitialized-`kpoint` read when all
parts read lie in `{1,...,k}`. -/
theorem candScan_total (k : Nat) (A cr c : Nat → Nat) (np : Nat)
    (hnp : A np ∈ List.range' 1 k)
    (hbound : ∀ j ∈ List.range' 1 (k-1), A (cr (c j)) ∈ List.range' 1 k)
    (hk : 0 < k) :
    candScan k A cr c np ≠ some none := by
  unfold candScan
  refine candLoop_total k A cr c _ _ _ ?_ ?_ hbound ?_ hk
  · intro x hx
    by_cases hxz : x = A np
    · rw [hxz]; exact hnp
    · rw [updf_other _ _ hxz] at hx
      exact Bool.noConfusion hx
  · intro hkk
    by_cases hnpk : A np = k
    · rw [if_pos hnpk]; exact ⟨np, rfl⟩
    · have hne : (k : Nat) ≠ A np := fun h => hnpk h.symm
      rw [updf_other _ _ hne] at hkk
      exact Bool.noConfusion hkk
  · have h0 : countOn (List.range' 1 k) (fun _ => false) = 0 := by
      simp [countOn]
    have h1 : countOn (List.range' 1 k) (updf (fun _ => false) (A np) true) = 1 := by
      have := filter_length_flip (fun _ => false) (updf (fun _ => false) (A np) true)
        (A np) (List.range' 1 k) (List.nodup_range' 1 k) hnp rfl (updf_same _ _ _)
        (fun x hx => updf_other _ _ hx)
      simp [countOn] at this ⊢
      omega
    rw [h1]
    simp
    omega

/-- Provenance of a delivered `kpoint`: it is either the initial value or
one of the points read during the loop. -/
theorem candLoop_src (k : Nat) (A cr c : Nat → Nat) :
    ∀ (js : List Nat) (covered : Nat → Bool) (kpoint : Option Nat) (kp : Nat),
      candLoop k A cr c js covered kpoint = some (some kp) →
      kpoint = some kp ∨ ∃ j ∈ js, kp = cr (c j) := by
  intro js
  induction js with
  | nil =>
    intro covered kpoint kp h
    left; injection h
  | cons j js ih =>
    intro covered kpoint kp h
    cases hcov : covered (A (cr (c j))) with
    | true => simp [candLoop, hcov] at h
    | false =>
      rw [show candLoop k A cr c (j :: js) covered kpoint =
            candLoop k A cr c js (updf covered (A (cr (c j))) true)
              (if A (cr (c j)) = k then some (cr (c j)) else kpoint) from by
            simp [candLoop, hcov]] at h
      rcases ih _ _ kp h with h1 | ⟨j2, hj2, he⟩
      · by_cases hpk : A (cr (c j)) = k
        · rw [if_pos hpk] at h1
          injection h1 with h2
          exact Or.inr ⟨j, List.mem_cons_self j js, h2.symm⟩
        · rw [if_neg hpk] at h1
          exact Or.inl h1
      · exact Or.inr ⟨j2, List.mem_cons_of_mem _ hj2, he⟩

/-- Provenance of a `kpoint` from a full candidate scan: `newpoint` itself or
the image under the coset representative of a point of the combination. -/
theorem candScan_src (k : Nat) (A cr c : Nat → Nat) (np kp : Nat) :
    candScan k A cr c np = some (some kp) →
    kp = np ∨ ∃ j ∈ List.range' 1 (k-1), kp = cr (c j) := by
  intro h
  rcases candLoop_src k A cr c _ _ _ kp h with h1 | h1
  · by_cases hnpk : A np = k
    · rw [if_pos hnpk] at h1
      injection h1 with h2
      exact Or.inl h2.symm
    · rw [if_neg hnpk] at h1
      exact Option.noConfusion h1
  · exact Or.inr h1

/-- The adjacency scan runs to some result whenever no candidate hits the
uninitialized-`kpoint` read. -/
theorem adjScan_total (n k : Nat) (cr : Nat → Nat) (comb : Nat → Nat → Nat)
    (A : Nat → Nat) (np ac : Nat) :
    ∀ (l : List Nat), (∀ a ∈ l, candScan k A cr (comb a) np ≠ some none) →
      ∀ (Rnew : Nat → Bool) (cnt : Nat),
        ∃ res, adjScan n k cr comb A np ac l Rnew cnt = some res := by
  intro l
  induction l with
  | nil => intro _ Rnew cnt; exact ⟨Sum.inl (Rnew, cnt), rfl⟩
  | cons a l ih =>
    intro hl Rnew cnt
    have hl2 : ∀ a2 ∈ l, candScan k A cr (comb a2) np ≠ some none :=
      fun a2 ha2 => hl a2 (List.mem_cons_of_mem _ ha2)
    cases hc : candScan k A cr (comb a) np with
    | none =>
      obtain ⟨res, hres⟩ := ih hl2 Rnew cnt
      exact ⟨res, by simp [adjScan, hc, hres]⟩
    | some kp0 =>
      cases kp0 with
      | none => exact absurd hc (hl a (List.mem_cons_self a l))
      | some kp =>
        by_cases hin : Rnew kp
        · obtain ⟨res, hres⟩ := ih hl2 Rnew cnt
          exact ⟨res, by simp [adjScan, hc, hin, hres]⟩
        · by_cases hgt : (ac + (cnt + 1)) * k > (k - 1) * n
          · exact ⟨Sum.inr true, by simp [adjScan, hc, hin, hgt]⟩
          · obtain ⟨res, hres⟩ := ih hl2 (updf Rnew kp true) (cnt + 1)
            exact ⟨res, by simp [adjScan, hc, hin, hgt, hres]⟩

/-- Through a completed adjacency scan, the working forced set keeps its
support inside `{1,...,n}` and its counter equal to its actual size. -/
theorem adjScan_inv2 (n k : Nat) (cr : Nat → Nat) (comb : Nat → Nat → Nat)
    (A : Nat → Nat) (np ac : Nat) :
    ∀ (l : List Nat) (Rnew : Nat → Bool) (cnt : Nat) (R1 : Nat → Bool) (c1 : Nat),
      (∀ a ∈ l, ∀ kp, candScan k A cr (comb a) np = some (some kp) →
        kp ∈ List.range' 1 n) →
      (∀ s, Rnew s = true → s ∈ List.range' 1 n) →
      cnt = countOn (List.range' 1 n) Rnew →
      adjScan n k cr comb A np ac l Rnew cnt = some (Sum.inl (R1, c1)) →
      (∀ s, R1 s = true → s ∈ List.range' 1 n) ∧
        c1 = countOn (List.range' 1 n) R1 := by
  intro l
  induction l with
  | nil =>
    intro Rnew cnt R1 c1 _ hsupp hcnt h
    simp [adjScan] at h
    rw [← h.1, ← h.2]
    exact ⟨hsupp, hcnt⟩
  | cons a l ih =>
    intro Rnew cnt R1 c1 hkp hsupp hcnt h
    have hkp2 : ∀ a2 ∈ l, ∀ kp, candScan k A cr (comb a2) np = some (some kp) →
        kp ∈ List.range' 1 n :=
      fun a2 ha2 => hkp a2 (List.mem_cons_of_mem _ ha2)
    cases hc : candScan k A cr (comb a) np with
    | none =>
      rw [show adjScan n k cr comb A np ac (a :: l) Rnew cnt =
            adjScan n k cr comb A np ac l Rnew cnt from by simp [adjScan, hc]] at h
      exact ih Rnew cnt R1 c1 hkp2 hsupp hcnt h
    | some kp0 =>
      cases kp0 with
      | none => simp [adjScan, hc] at h
      | some kp =>
        by_cases hin : Rnew kp
        · rw [show adjScan n k cr comb A np ac (a :: l) Rnew cnt =
                adjScan n k cr comb A np ac l Rnew cnt from by
              simp [adjScan, hc, hin]] at h
          exact ih Rnew cnt R1 c1 hkp2 hsupp hcnt h
        · by_cases hgt : (ac + (cnt + 1)) * k > (k - 1) * n
          · simp [adjScan, hc, hin, hgt] at h
          · rw [show adjScan n k cr comb A np ac (a :: l) Rnew cnt =
                  adjScan n k cr comb A np ac l (updf Rnew kp true) (cnt + 1) from by
                simp [adjScan, hc, hin, hgt]] at h
            have hkpn : kp ∈ List.range' 1 n := hkp a (List.mem_cons_self a l) kp hc
            refine ih _ _ R1 c1 hkp2 ?_ ?_ h
            · intro s hs
              by_cases hskp : s = kp
              · rw [hskp]; exact hkpn
              · rw [updf_other _ _ hskp] at hs
                exact hsupp s hs
            · have hinf : Rnew kp = false := by
                cases hv : Rnew kp with
                | true => exact absurd hv hin
                | false => rfl
              have := filter_length_flip Rnew (updf Rnew kp true) kp
                (List.range' 1 n) (List.nodup_range' 1 n) hkpn hinf (updf_same _ _ _)
                (fun x hx => updf_other _ _ hx)
              simp [countOn] at this hcnt ⊢
              omega

/-- A nonzero forced-set counter means the scan over `{1,...,n}` at
tpexternal.c:229-237 finds a forced point. -/
theorem find_forced (n : Nat) (R1 : Nat → Bool)
    (h : countOn (List.range' 1 n) R1 ≠ 0) :
    ∃ r, (List.range' 1 n).find? (fun i => R1 i) = some r := by
  have hne : (List.range' 1 n).filter R1 ≠ [] := by
    intro he
    exact h (by simp [countOn, he])
  obtain ⟨r, hr⟩ := List.exists_mem_of_ne_nil _ hne
  have hmem := List.mem_filter.mp hr
  have hsome : ((List.range' 1 n).find? (fun i => R1 i)).isSome := by
    rw [List.find?_isSome]
    exact ⟨r, hmem.1, hmem.2⟩
  exact Option.isSome_iff_exists.mp hsome

/-- Totality of the branching loop, given a buffer with `A0[r] = k`
(so restoring `r` to `k` reproduces the buffer) and sub-calls that are total
and restoring on each label. -/
theorem branchLoop_total
    (tp : (Nat → Nat) → (Nat → Bool) → Nat → Option (Bool × (Nat → Nat)))
    (r k : Nat) (R2 : Nat → Bool) (A0 : Nat → Nat)
    (hstable : updf A0 r k = A0) :
    ∀ (js : List Nat),
      (∀ i ∈ js, (∃ res, tp (updf A0 r i) R2 r = some res) ∧
        (∀ A3, tp (updf A0 r i) R2 r = some (true, A3) → A3 = updf A0 r i)) →
      ∃ res, branchLoopAux tp r k R2 js A0 = some res := by
  intro js
  induction js with
  | nil => intro _; exact ⟨(true, A0), rfl⟩
  | cons i is ih =>
    intro hjs
    obtain ⟨⟨res0, hres0⟩, hrest⟩ := hjs i (List.mem_cons_self i is)
    obtain ⟨b, A3⟩ := res0
    cases b with
    | false => exact ⟨(false, A3), by simp [branchLoopAux, hres0]⟩
    | true =>
      have hA3 : A3 = updf A0 r i := hrest A3 hres0
      obtain ⟨res, hres⟩ := ih (fun i2 hi2 => hjs i2 (List.mem_cons_of_mem _ hi2))
      refine ⟨res, ?_⟩
      rw [show branchLoopAux tp r k R2 (i :: is) A0 =
            branchLoopAux tp r k R2 is (updf A3 r k) from by simp [branchLoopAux, hres0]]
      rw [hA3, updf_updf, hstable]
      exact hres

/-- Totality of the checker: under the structural preconditions (coset
images and combination entries are points, parts lie in `{1,...,k}`, the
forced set lies in part `k` inside `{1,...,n}`), a call with
`fuel ≥ n + 1 - Acount` returns.  The measure: each recursive call moves one
point of part `k` into a part `< k`, so `Acount` grows strictly; `Acount`
never exceeds `n`. -/
theorem tp_total :
    ∀ (fuel n k : Nat) (creps : Nat → Nat → Nat) (adj : List Nat)
      (comb : Nat → Nat → Nat) (A : Nat → Nat) (R : Nat → Bool) (np : Nat),
      2 ≤ k →
      (∀ p ∈ List.range' 1 n, ∀ j ∈ List.range' 1 n, creps p j ∈ List.range' 1 n) →
      (∀ a ∈ adj, ∀ j ∈ List.range' 1 (k-1), comb a j ∈ List.range' 1 n) →
      (∀ i ∈ List.range' 1 n, 1 ≤ A i ∧ A i ≤ k) →
      (∀ s, R s = true → A s = k) →
      (∀ s, R s = true → s ∈ List.range' 1 n) →
      np ∈ List.range' 1 n →
      n + 1 ≤ fuel + countUnder n k A →
      ∃ b A2, TransversalProperty fuel n k creps adj comb A R np = some (b, A2) := by
  intro fuel
  induction fuel with
  | zero =>
    intro n k creps adj comb A R np _ _ _ _ _ _ _ hfuel
    exfalso
    have h1 : countUnder n k A ≤ n := by
      have := countOn_le (List.range' 1 n) (fun i => decide (A i < k))
      simpa [countUnder] using this
    omega
  | succ fuel ih =>
    intro n k creps adj comb A R np hk hcr hcb hA hRk hRn hnp hfuel
    have hAin : ∀ x ∈ List.range' 1 n, A x ∈ List.range' 1 k := by
      intro x hx
      obtain ⟨h1, h2⟩ := hA x hx
      exact List.mem_range'_1.mpr ⟨h1, by omega⟩
    have hbound : ∀ a ∈ adj, ∀ j ∈ List.range' 1 (k-1),
        A (creps np (comb a j)) ∈ List.range' 1 k := by
      intro a ha j hj
      exact hAin _ (hcr np hnp _ (hcb a ha j hj))
    have hnocand : ∀ a ∈ adj, candScan k A (creps np) (comb a) np ≠ some none := by
      intro a ha
      exact candScan_total k A (creps np) (comb a) np (hAin np hnp)
        (fun j hj => hbound a ha j hj) (by omega)
    obtain ⟨res, hres⟩ := adjScan_total n k (creps np) comb A np (countUnder n k A)
      adj hnocand R (countTrue n R)
    cases res with
    | inr b =>
      refine ⟨b, A, ?_⟩
      rw [TP_succ, hres]
    | inl p =>
      obtain ⟨R1, c1⟩ := p
      have hkpmem : ∀ a ∈ adj, ∀ kp, candScan k A (creps np) (comb a) np =
          some (some kp) → kp ∈ List.range' 1 n := by
        intro a ha kp hc
        rcases candScan_src k A (creps np) (comb a) np kp hc with h1 | ⟨j, hj, h2⟩
        · rw [h1]; exact hnp
        · rw [h2]; exact hcr np hnp _ (hcb a ha j hj)
      have hinv := adjScan_inv2 n k (creps np) comb A np (countUnder n k A)
        adj R (countTrue n R) R1 c1 hkpmem hRn rfl hres
      by_cases hc0 : c1 = 0
      · refine ⟨false, A, ?_⟩
        rw [TP_succ, hres]
        show (if c1 = 0 then some (false, A) else _) = _
        rw [if_pos hc0]
      · obtain ⟨r, hfind⟩ := find_forced n R1 (by rw [← hinv.2]; exact hc0)
        have hR1r : R1 r = true := List.find?_some hfind
        have hrn : r ∈ List.range' 1 n := List.mem_of_find?_eq_some hfind
        have hR1k : ∀ s, R1 s = true → A s = k :=
          adjScan_kset n k (creps np) comb A np (countUnder n k A) adj R
            (countTrue n R) R1 c1 hRk hres
        have hAr : A r = k := hR1k r hR1r
        have hstable : updf A r k = A := by
          rw [← hAr]; exact updf_self A r
        have hjs : ∀ i ∈ List.range' 1 (k-1),
            (∃ res2, TransversalProperty fuel n k creps adj comb (updf A r i)
              (updf R1 r false) r = some res2) ∧
            (∀ A3, TransversalProperty fuel n k creps adj comb (updf A r i)
              (updf R1 r false) r = some (true, A3) → A3 = updf A r i) := by
          intro i hi
          have hi2 := List.mem_range'_1.mp hi
          have hik : i < k := by omega
          have hA1 : ∀ x ∈ List.range' 1 n, 1 ≤ updf A r i x ∧ updf A r i x ≤ k := by
            intro x hx
            by_cases hxr : x = r
            · rw [hxr, updf_same]; omega
            · rw [updf_other _ _ hxr]; exact hA x hx
          have hR2k : ∀ s, updf R1 r false s = true → updf A r i s = k := by
            intro s hs
            by_cases hsr : s = r
            · rw [hsr, updf_same] at hs; exact Bool.noConfusion hs
            · rw [updf_other _ _ hsr] at hs
              rw [updf_other _ _ hsr]
              exact hR1k s hs
          have hR2n : ∀ s, updf R1 r false s = true → s ∈ List.range' 1 n := by
            intro s hs
            by_cases hsr : s = r
            · rw [hsr, updf_same] at hs; exact Bool.noConfusion hs
            · rw [updf_other _ _ hsr] at hs
              exact hinv.1 s hs
          have hcount : countUnder n k (updf A r i) = countUnder n k A + 1 :=
            countUnder_updf n k r i A hrn hAr hik
          constructor
          · obtain ⟨b3, A5, h5⟩ := ih n k creps adj comb (updf A r i)
              (updf R1 r false) r hk hcr hcb hA1 hR2k hR2n hrn (by omega)
            exact ⟨(b3, A5), h5⟩
          · intro A3 htp
            exact tp_restore_aux fuel n k creps adj comb (updf A r i)
              (updf R1 r false) r A3 hR2k htp
        obtain ⟨res2, hres2⟩ := branchLoop_total
          (fun A3 R3 np3 => TransversalProperty fuel n k creps adj comb A3 R3 np3)
          r k (updf R1 r false) A hstable (List.range' 1 (k-1)) hjs
        obtain ⟨b2, A4⟩ := res2
        refine ⟨b2, A4, ?_⟩
        rw [TP_succ, hres]
        show (if c1 = 0 then some (false, A)
            else match (List.range' 1 n).find? (fun i => R1 i) with
              | none => none
              | some r2 =>
                branchLoopAux
                  (fun A3 R3 np3 => TransversalProperty fuel n k creps adj comb A3 R3 np3)
                  r2 k (updf R1 r2 false) (List.range' 1 (k-1)) A) = some (b2, A4)
        rw [if_neg hc0, hfind]
        exact hres2

/-! ### Analysis of `Combinations`: the successor step -/

/-- A strictly increasing list with entries in `[lo, n]` has at most
`n + 1 - lo` entries. -/
theorem incB_length : ∀ (c : List Nat) (n lo : Nat), lo ≤ n + 1 → IncB n lo c →
    c.length + lo ≤ n + 1 := by
  intro c
  induction c with
  | nil => intro n lo hlo _; simpa using hlo
  | cons x rest ih =>
    intro n lo hlo h
    obtain ⟨h1, h2, h3⟩ := h
    have := ih n (x+1) (by omega) h3
    simp only [List.length_cons]
    omega

theorem incB_mono : ∀ (c : List Nat) (n lo lo2 : Nat), lo2 ≤ lo → IncB n lo c →
    IncB n lo2 c := by
  intro c
  induction c with
  | nil => intro n lo lo2 _ _; trivial
  | cons x rest _ =>
    intro n lo lo2 hlo h
    obtain ⟨h1, h2, h3⟩ := h
    exact ⟨by omega, h2, h3⟩

theorem incB_range' : ∀ (len a n lo : Nat), lo ≤ a → a + len ≤ n + 1 →
    IncB n lo (List.range' a len) := by
  intro len
  induction len with
  | zero => intro a n lo _ _; trivial
  | succ len ih =>
    intro a n lo hlo hle
    show IncB n lo (a :: List.range' (a+1) len)
    exact ⟨hlo, by omega, ih (a+1) n (a+1) (le_refl _) (by omega)⟩

/-- The successor step is exhausted exactly on the last combination
`[n-len+1, ..., n]`. -/
theorem combSuccAux_none_iff : ∀ (c : List Nat) (n lo : Nat), 1 ≤ lo →
    IncB n lo c →
    (combSuccAux n c = none ↔ c = List.range' (n + 1 - c.length) c.length) := by
  intro c
  induction c with
  | nil =>
    intro n lo _ _
    constructor
    · intro _; rfl
    · intro _; rfl
  | cons x rest ih =>
    intro n lo hlo h
    obtain ⟨h1, h2, h3⟩ := h
    have hlen : rest.length + (x + 1) ≤ n + 1 := incB_length rest n (x+1) (by omega) h3
    have hxle : x ≤ n - rest.length := by omega
    have hsplit : List.range' (n + 1 - (x :: rest).length) (x :: rest).length =
        (n - rest.length) :: List.range' (n + 1 - rest.length) rest.length := by
      simp only [List.length_cons]
      have he : n + 1 - (rest.length + 1) = n - rest.length := by omega
      have he2 : (n - rest.length) + 1 = n + 1 - rest.length := by omega
      rw [he]
      show List.range' (n - rest.length) (rest.length + 1) = _
      rw [List.range'_succ, he2]
    cases hs : combSuccAux n rest with
    | some rest2 =>
      constructor
      · intro hcontra
        rw [show combSuccAux n (x :: rest) = some (x :: rest2) from by
          simp [combSuccAux, hs]] at hcontra
        exact Option.noConfusion hcontra
      · intro heq
        rw [hsplit] at heq
        simp only [List.cons.injEq] at heq
        have h6 : rest = List.range' (n + 1 - rest.length) rest.length := heq.2
        have := (ih n (x+1) (by omega) h3).mpr h6
        rw [this] at hs
        exact Option.noConfusion hs
    | none =>
      have hrest : rest = List.range' (n + 1 - rest.length) rest.length :=
        (ih n (x+1) (by omega) h3).mp hs
      constructor
      · intro hnone
        rw [show combSuccAux n (x :: rest) =
            (if x < n - rest.length then
              some (List.range' (x+1) (rest.length + 1)) else none) from by
          simp [combSuccAux, hs]] at hnone
        have hxge : ¬ x < n - rest.length := by
          intro hcontra
          rw [if_pos hcontra] at hnone
          exact Option.noConfusion hnone
        have hxeq : x = n - rest.length := by omega
        rw [hsplit, ← hxeq, ← hrest]
      · intro heq
        rw [hsplit] at heq
        simp only [List.cons.injEq] at heq
        rw [show combSuccAux n (x :: rest) =
            (if x < n - rest.length then
              some (List.range' (x+1) (rest.length + 1)) else none) from by
          simp [combSuccAux, hs]]
        rw [if_neg (by omega)]

/-- The successor of a valid combination is a valid combination of the same
length. -/
theorem combSuccAux_incB : ∀ (c : List Nat) (n lo : Nat) (c2 : List Nat),
    1 ≤ lo → IncB n lo c → combSuccAux n c = some c2 →
    IncB n lo c2 ∧ c2.length = c.length := by
  intro c
  induction c with
  | nil => intro n lo c2 _ _ h; exact Option.noConfusion h
  | cons x rest ih =>
    intro n lo c2 hlo h hsucc
    obtain ⟨h1, h2, h3⟩ := h
    cases hs : combSuccAux n rest with
    | some rest2 =>
      rw [show combSuccAux n (x :: rest) = some (x :: rest2) from by
        simp [combSuccAux, hs]] at hsucc
      injection hsucc with hc2
      obtain ⟨hi, hl⟩ := ih n (x+1) rest2 (by omega) h3 hs
      rw [← hc2]
      exact ⟨⟨h1, h2, hi⟩, by simp [hl]⟩
    | none =>
      rw [show combSuccAux n (x :: rest) =
          (if x < n - rest.length then
            some (List.range' (x+1) (rest.length + 1)) else none) from by
        simp [combSuccAux, hs]] at hsucc
      by_cases hx : x < n - rest.length
      · rw [if_pos hx] at hsucc
        injection hsucc with hc2
        rw [← hc2]
        constructor
        · exact incB_range' (rest.length + 1) (x+1) n lo (by omega) (by omega)
        · simp
      · rw [if_neg hx] at hsucc
        exact Option.noConfusion hsucc

/-! ### Analysis of `Combinations`: the lexicographic order -/

theorem lexLt_trans : ∀ {a b c : List Nat}, List.Lex (· < ·) a b →
    List.Lex (· < ·) b c → List.Lex (· < ·) a c := by
  intro a b c h1
  induction h1 generalizing c with
  | nil =>
    intro h2
    cases h2 with
    | rel h3 => exact List.Lex.nil
    | cons h3 => exact List.Lex.nil
  | @rel a2 l1 b2 l2 h =>
    intro h2
    cases h2 with
    | rel h3 => exact List.Lex.rel (lt_trans h h3)
    | cons h3 => exact List.Lex.rel h
  | @cons a2 l1 l2 h ih =>
    intro h2
    cases h2 with
    | rel h3 => exact List.Lex.rel h3
    | cons h3 => exact List.Lex.cons (ih h3)

theorem lexLt_irrefl : ∀ (c : List Nat), ¬ List.Lex (· < ·) c c := by
  intro c
  induction c with
  | nil => intro h; cases h
  | cons x l ih =>
    intro h
    cases h with
    | rel h2 => exact lt_irrefl x h2
    | cons h2 => exact ih h2

theorem lexLt_asymm {a b : List Nat} (h1 : List.Lex (· < ·) a b)
    (h2 : List.Lex (· < ·) b a) : False :=
  lexLt_irrefl a (lexLt_trans h1 h2)

theorem chain'_lexLt_head : ∀ (l : List (List Nat)) (a : List Nat),
    List.Chain' (List.Lex (· < ·)) (a :: l) → ∀ b ∈ l, List.Lex (· < ·) a b := by
  intro l
  induction l with
  | nil => intro a _ b hb; exact absurd hb (List.not_mem_nil b)
  | cons c l ih =>
    intro a h b hb
    have h1 : List.Lex (· < ·) a c := (List.chain'_cons.mp h).1
    have h2 := (List.chain'_cons.mp h).2
    rcases List.mem_cons.mp hb with hb1 | hb1
    · rw [hb1]; exact h1
    · exact lexLt_trans h1 (ih c h2 b hb1)

theorem chain'_lexLt_pairwise : ∀ (l : List (List Nat)),
    List.Chain' (List.Lex (· < ·)) l → List.Pairwise (List.Lex (· < ·)) l := by
  intro l
  induction l with
  | nil => intro _; exact List.Pairwise.nil
  | cons a l ih =>
    intro h
    refine List.Pairwise.cons (chain'_lexLt_head l a h) (ih ?_)
    exact (List.chain'_cons'.mp h).2

theorem chain'_lexLt_nodup (l : List (List Nat))
    (h : List.Chain' (List.Lex (· < ·)) l) : l.Nodup :=
  (chain'_lexLt_pairwise l h).imp
    (fun hl heq => absurd (heq ▸ hl) (lexLt_irrefl _))

/-- The successor is lexicographically larger. -/
theorem combSuccAux_lex : ∀ (c : List Nat) (n : Nat) (c2 : List Nat),
    combSuccAux n c = some c2 → List.Lex (· < ·) c c2 := by
  intro c
  induction c with
  | nil => intro n c2 h; exact Option.noConfusion h
  | cons x rest ih =>
    intro n c2 hsucc
    cases hs : combSuccAux n rest with
    | some rest2 =>
      rw [show combSuccAux n (x :: rest) = some (x :: rest2) from by
        simp [combSuccAux, hs]] at hsucc
      injection hsucc with hc2
      rw [← hc2]
      exact List.Lex.cons (ih n rest2 hs)
    | none =>
      rw [show combSuccAux n (x :: rest) =
          (if x < n - rest.length then
            some (List.range' (x+1) (rest.length + 1)) else none) from by
        simp [combSuccAux, hs]] at hsucc
      by_cases hx : x < n - rest.length
      · rw [if_pos hx] at hsucc
        injection hsucc with hc2
        rw [← hc2]
        show List.Lex (· < ·) (x :: rest) (List.range' (x+1) (rest.length + 1))
        rw [List.range'_succ]
        exact List.Lex.rel (Nat.lt_succ_self x)
      · rw [if_neg hx] at hsucc
        exact Option.noConfusion hsucc

/-- `range' lo len` is the lexicographically least strictly increasing list
of length `len` with entries at least `lo`. -/
theorem range'_lex_min : ∀ (y : List Nat) (n lo : Nat), IncB n lo y →
    List.range' lo y.length = y ∨ List.Lex (· < ·) (List.range' lo y.length) y := by
  intro y
  induction y with
  | nil => intro n lo _; left; rfl
  | cons e y2 ih =>
    intro n lo h
    obtain ⟨h1, h2, h3⟩ := h
    show List.range' lo (y2.length + 1) = e :: y2 ∨ _
    rw [List.range'_succ]
    rcases lt_or_eq_of_le h1 with hlt | heq
    · right; exact List.Lex.rel hlt
    · rw [heq]
      rcases ih n (e+1) h3 with h4 | h4
      · left; rw [h4]
      · right; exact List.Lex.cons h4

/-- Nothing valid is lexicographically above the last combination. -/
theorem not_lex_of_max : ∀ (y : List Nat) (n lo : Nat), IncB n lo y →
    ¬ List.Lex (· < ·) (List.range' (n + 1 - y.length) y.length) y := by
  intro y
  induction y with
  | nil => intro n lo _; exact List.Lex.not_nil_right _ _
  | cons e y2 ih =>
    intro n lo h
    obtain ⟨h1, h2, h3⟩ := h
    have hlen : y2.length + (e + 1) ≤ n + 1 := incB_length y2 n (e+1) (by omega) h3
    intro hlex
    have hsplit : List.range' (n + 1 - (e :: y2).length) (e :: y2).length =
        (n - y2.length) :: List.range' (n + 1 - y2.length) y2.length := by
      simp only [List.length_cons]
      have he : n + 1 - (y2.length + 1) = n - y2.length := by omega
      have he2 : (n - y2.length) + 1 = n + 1 - y2.length := by omega
      rw [he, List.range'_succ, he2]
    rw [hsplit] at hlex
    cases hlex with
    | rel h4 => omega
    | cons h4 => exact ih n (n - y2.length + 1) h3 h4

/-- Minimality of the successor: every valid `y` lexicographically above `c`
is at or above `combSuccAux n c`. -/
theorem combSuccAux_min : ∀ (c : List Nat) (n lo : Nat) (y c2 : List Nat),
    1 ≤ lo → IncB n lo c → IncB n lo y → y.length = c.length →
    List.Lex (· < ·) c y → combSuccAux n c = some c2 →
    c2 = y ∨ List.Lex (· < ·) c2 y := by
  intro c
  induction c with
  | nil => intro n lo y c2 _ _ _ _ _ h; exact Option.noConfusion h
  | cons x rest ih =>
    intro n lo y c2 hlo hc hy hlen hlex hsucc
    obtain ⟨hx1, hx2, hrest⟩ := hc
    cases y with
    | nil => exact absurd hlen (by simp)
    | cons q y2 =>
      obtain ⟨hq1, hq2, hy2⟩ := hy
      have hlen2 : y2.length = rest.length := by
        simpa using hlen
      cases hlex with
      | rel hxq =>
        cases hs : combSuccAux n rest with
        | some rest2 =>
          rw [show combSuccAux n (x :: rest) = some (x :: rest2) from by
            simp [combSuccAux, hs]] at hsucc
          injection hsucc with hc2
          rw [← hc2]
          right
          exact List.Lex.rel hxq
        | none =>
          rw [show combSuccAux n (x :: rest) =
              (if x < n - rest.length then
                some (List.range' (x+1) (rest.length + 1)) else none) from by
            simp [combSuccAux, hs]] at hsucc
          by_cases hxb : x < n - rest.length
          · rw [if_pos hxb] at hsucc
            injection hsucc with hc2
            rw [← hc2]
            have hymin := range'_lex_min (q :: y2) n (x+1)
              ⟨by omega, hq2, hy2⟩
            rw [show (q :: y2).length = rest.length + 1 from by
              simp [hlen2]] at hymin
            exact hymin
          · rw [if_neg hxb] at hsucc
            exact Option.noConfusion hsucc
      | cons htail =>
        cases hs : combSuccAux n rest with
        | some rest2 =>
          rw [show combSuccAux n (x :: rest) = some (x :: rest2) from by
            simp [combSuccAux, hs]] at hsucc
          injection hsucc with hc2
          rw [← hc2]
          rcases ih n (x+1) y2 rest2 (by omega) hrest hy2 hlen2 htail hs with h4 | h4
          · left; rw [h4]
          · right; exact List.Lex.cons h4
        | none =>
          exfalso
          have hrmax : rest = List.range' (n + 1 - rest.length) rest.length :=
            (combSuccAux_none_iff rest n (x+1) (by omega) hrest).mp hs
          have hnot := not_lex_of_max y2 n (x+1) hy2
          rw [hlen2] at hnot
          rw [hrmax] at htail
          exact hnot htail

/-! ### Analysis of `Combinations`: the generation loop -/

theorem combStream_length : ∀ (m n : Nat) (c : List Nat),
    (combStream n c m).length = m := by
  intro m
  induction m with
  | zero => intro n c; rfl
  | succ m ih =>
    intro n c
    cases hs : combSuccAux n c with
    | some nxt => simp [combStream, hs, ih]
    | none => simp [combStream, hs]

theorem combStream_head : ∀ (m n : Nat) (c : List Nat), 1 ≤ m →
    (combStream n c m).head? = some c := by
  intro m n c hm
  cases m with
  | zero => omega
  | succ m => rfl

theorem combStream_self_mem : ∀ (m n : Nat) (c : List Nat), 1 ≤ m →
    c ∈ combStream n c m := by
  intro m n c hm
  cases m with
  | zero => omega
  | succ m => exact List.mem_cons_self c _

/-- Either the last combination appears in the emitted stream, or the stream
is a strictly ordered list of valid combinations (no junk entry from an
exhausted successor was emitted). -/
theorem combStream_chainE : ∀ (m n kk : Nat) (c : List Nat),
    IncB n 1 c → c.length = kk →
    List.range' (n + 1 - kk) kk ∈ combStream n c m ∨
      (List.Chain' (List.Lex (· < ·)) (combStream n c m) ∧
        ∀ z ∈ combStream n c m, IncB n 1 z ∧ z.length = kk) := by
  intro m
  induction m with
  | zero =>
    intro n kk c _ _
    right
    exact ⟨List.chain'_nil, fun z hz => absurd hz (List.not_mem_nil z)⟩
  | succ m ih =>
    intro n kk c hc hlen
    cases hs : combSuccAux n c with
    | none =>
      left
      have hctop : c = List.range' (n + 1 - kk) kk := by
        have := (combSuccAux_none_iff c n 1 (le_refl 1) hc).mp hs
        rw [hlen] at this
        exact this
      rw [← hctop]
      exact combStream_self_mem (m+1) n c (by omega)
    | some c2 =>
      obtain ⟨hc2, hl2⟩ := combSuccAux_incB c n 1 c2 (le_refl 1) hc hs
      have hstep : combStream n c (m+1) = c :: combStream n c2 m := by
        simp [combStream, hs]
      rcases ih n kk c2 hc2 (hl2.trans hlen) with h1 | ⟨h1, h2⟩
      · left; rw [hstep]; exact List.mem_cons_of_mem c h1
      · right
        rw [hstep]
        constructor
        · rw [List.chain'_cons']
          refine ⟨?_, h1⟩
          intro b hb
          cases m with
          | zero => simp [combStream] at hb
          | succ m2 =>
            rw [combStream_head (m2+1) n c2 (by omega)] at hb
            have hbc : c2 = b := by simpa using hb
            rw [← hbc]
            exact combSuccAux_lex c n c2 hs
        · intro z hz
          rcases List.mem_cons.mp hz with hz1 | hz1
          · rw [hz1]; exact ⟨hc, hlen⟩
          · exact h2 z hz1

/-- If the last combination appears within `m` emitted combinations, some
truncation of the stream is a strictly ordered list of valid combinations
ending exactly at the last combination. -/
theorem combStream_top_trunc : ∀ (m n kk : Nat) (c : List Nat),
    IncB n 1 c → c.length = kk →
    List.range' (n + 1 - kk) kk ∈ combStream n c m →
    ∃ j, j < m ∧ ∃ pre2,
      combStream n c (j+1) = pre2 ++ [List.range' (n + 1 - kk) kk] ∧
      List.Chain' (List.Lex (· < ·)) (combStream n c (j+1)) ∧
      ∀ z ∈ combStream n c (j+1), IncB n 1 z ∧ z.length = kk := by
  intro m
  induction m with
  | zero =>
    intro n kk c _ _ h
    exact absurd h (List.not_mem_nil _)
  | succ m ih =>
    intro n kk c hc hlen htop
    have hone : combStream n c 1 = [c] := by
      cases hs : combSuccAux n c <;> simp [combStream, hs]
    by_cases hceq : c = List.range' (n + 1 - kk) kk
    · refine ⟨0, by omega, [], ?_, ?_, ?_⟩
      · rw [hone, ← hceq]; rfl
      · rw [hone]; exact List.chain'_singleton c
      · intro z hz
        rw [hone] at hz
        have : z = c := by simpa using hz
        rw [this]; exact ⟨hc, hlen⟩
    · cases hs : combSuccAux n c with
      | none =>
        exfalso
        apply hceq
        have := (combSuccAux_none_iff c n 1 (le_refl 1) hc).mp hs
        rw [hlen] at this
        exact this
      | some c2 =>
        have hstep : combStream n c (m+1) = c :: combStream n c2 m := by
          simp [combStream, hs]
        have htop2 : List.range' (n + 1 - kk) kk ∈ combStream n c2 m := by
          rw [hstep] at htop
          rcases List.mem_cons.mp htop with h1 | h1
          · exact absurd h1.symm hceq
          · exact h1
        obtain ⟨hc2, hl2⟩ := combSuccAux_incB c n 1 c2 (le_refl 1) hc hs
        obtain ⟨j, hj, pre2, heq, hch, hall⟩ := ih n kk c2 hc2 (hl2.trans hlen) htop2
        have hstep2 : combStream n c (j+2) = c :: combStream n c2 (j+1) := by
          simp [combStream, hs]
        refine ⟨j+1, by omega, c :: pre2, ?_, ?_, ?_⟩
        · rw [hstep2, heq]; rfl
        · rw [hstep2, List.chain'_cons']
          refine ⟨?_, hch⟩
          intro b hb
          rw [combStream_head (j+1) n c2 (by omega)] at hb
          have hbc : c2 = b := by simpa using hb
          rw [← hbc]
          exact combSuccAux_lex c n c2 hs
        · intro z hz
          rw [hstep2] at hz
          rcases List.mem_cons.mp hz with hz1 | hz1
          · rw [hz1]; exact ⟨hc, hlen⟩
          · exact hall z hz1

/-- Every valid combination at or above the current one is emitted, unless
the whole emitted stream stays lexicographically below it. -/
theorem combStream_cover : ∀ (m n kk : Nat) (c y : List Nat),
    IncB n 1 c → c.length = kk → IncB n 1 y → y.length = kk →
    (c = y ∨ List.Lex (· < ·) c y) →
    y ∈ combStream n c m ∨ ∀ z ∈ combStream n c m, List.Lex (· < ·) z y := by
  intro m
  induction m with
  | zero =>
    intro n kk c y _ _ _ _ _
    right
    intro z hz
    exact absurd hz (List.not_mem_nil z)
  | succ m ih =>
    intro n kk c y hc hclen hy hylen hcy
    rcases hcy with hceq | hclex
    · left
      rw [← hceq]
      exact combStream_self_mem (m+1) n c (by omega)
    · cases hs : combSuccAux n c with
      | none =>
        exfalso
        have hctop : c = List.range' (n + 1 - kk) kk := by
          have := (combSuccAux_none_iff c n 1 (le_refl 1) hc).mp hs
          rw [hclen] at this
          exact this
        have hnot := not_lex_of_max y n 1 hy
        rw [hylen] at hnot
        rw [hctop] at hclex
        exact hnot hclex
      | some c2 =>
        obtain ⟨hc2, hl2⟩ := combSuccAux_incB c n 1 c2 (le_refl 1) hc hs
        have hmin := combSuccAux_min c n 1 y c2 (le_refl 1) hc hy
          (by rw [hylen, hclen]) hclex hs
        have hstep : combStream n c (m+1) = c :: combStream n c2 m := by
          simp [combStream, hs]
        rcases ih n kk c2 y hc2 (hl2.trans hclen) hy hylen hmin with h1 | h1
        · left; rw [hstep]; exact List.mem_cons_of_mem c h1
        · right
          rw [hstep]
          intro z hz
          rcases List.mem_cons.mp hz with hz1 | hz1
          · rw [hz1]; exact hclex
          · exact h1 z hz1

/-! ### Valid combinations versus sublists of `range' 1 n` -/

theorem sublist_range'_shift : ∀ (d lo m : Nat) (l : List Nat),
    List.Sublist l (List.range' (lo + d) m) → List.Sublist l (List.range' lo (d + m)) := by
  intro d
  induction d with
  | zero => intro lo m l h; simpa using h
  | succ d ih =>
    intro lo m l h
    have h2 : List.Sublist l (List.range' (lo + 1) (d + m)) := by
      refine ih (lo+1) m l ?_
      have he : lo + 1 + d = lo + (d+1) := by omega
      rw [he]
      exact h
    have h3 : List.Sublist l (lo :: List.range' (lo + 1) (d + m)) := List.Sublist.cons lo h2
    have he2 : List.range' lo (d + 1 + m) = lo :: List.range' (lo+1) (d + m) := by
      have he : d + 1 + m = (d + m) + 1 := by omega
      rw [he, List.range'_succ]
    rw [he2]
    exact h3

theorem incB_sublist : ∀ (c : List Nat) (n lo : Nat), IncB n lo c →
    List.Sublist c (List.range' lo (n + 1 - lo)) := by
  intro c
  induction c with
  | nil => intro n lo _; exact List.nil_sublist _
  | cons x rest ih =>
    intro n lo h
    obtain ⟨h1, h2, h3⟩ := h
    have htail : List.Sublist rest (List.range' (x+1) (n - x)) := by
      have := ih n (x+1) h3
      have he : n + 1 - (x + 1) = n - x := by omega
      rw [he] at this
      exact this
    have hcons : List.Sublist (x :: rest) (List.range' x (n + 1 - x)) := by
      have he : n + 1 - x = (n - x) + 1 := by omega
      rw [he, List.range'_succ]
      exact List.Sublist.cons₂ x htail
    have hsh := sublist_range'_shift (x - lo) lo (n + 1 - x) (x :: rest) (by
      have he : lo + (x - lo) = x := by omega
      rw [he]
      exact hcons)
    have he2 : (x - lo) + (n + 1 - x) = n + 1 - lo := by omega
    rw [he2] at hsh
    exact hsh

theorem pairwise_incB : ∀ (c : List Nat) (n lo : Nat), c.Pairwise (· < ·) →
    (∀ x ∈ c, lo ≤ x ∧ x ≤ n) → IncB n lo c := by
  intro c
  induction c with
  | nil => intro n lo _ _; trivial
  | cons x rest ih =>
    intro n lo hp hb
    have hp2 := List.pairwise_cons.mp hp
    refine ⟨(hb x (List.mem_cons_self x rest)).1, (hb x (List.mem_cons_self x rest)).2, ?_⟩
    refine ih n (x+1) hp2.2 ?_
    intro y hy
    exact ⟨hp2.1 y hy, (hb y (List.mem_cons_of_mem x hy)).2⟩

theorem sublist_incB (c : List Nat) (n : Nat) (h : List.Sublist c (List.range' 1 n)) :
    IncB n 1 c := by
  refine pairwise_incB c n 1 ((List.pairwise_lt_range' 1 n).sublist h) ?_
  intro x hx
  have hm := List.mem_range'_1.mp (h.subset hx)
  exact ⟨hm.1, by omega⟩

theorem incB_chain : ∀ (c : List Nat) (n lo : Nat), IncB n lo c →
    List.Chain' (· < ·) c ∧ ∀ x ∈ c, lo ≤ x ∧ x ≤ n := by
  intro c
  induction c with
  | nil =>
    intro n lo _
    exact ⟨List.chain'_nil, fun x hx => absurd hx (List.not_mem_nil x)⟩
  | cons x rest ih =>
    intro n lo h
    obtain ⟨h1, h2, h3⟩ := h
    obtain ⟨hch, hbd⟩ := ih n (x+1) h3
    constructor
    · rw [List.chain'_cons']
      refine ⟨?_, hch⟩
      intro b hb
      have hbmem : b ∈ rest := List.mem_of_mem_head? hb
      have := hbd b hbmem
      omega
    · intro y hy
      rcases List.mem_cons.mp hy with hy1 | hy1
      · rw [hy1]; exact ⟨h1, h2⟩
      · have := hbd y hy1
        exact ⟨by omega, this.2⟩

theorem chain_incB : ∀ (c : List Nat) (n lo : Nat),
    List.Chain' (· < ·) c → (∀ x ∈ c, x ≤ n) →
    (∀ h2, c.head? = some h2 → lo ≤ h2) → IncB n lo c := by
  intro c
  induction c with
  | nil => intro n lo _ _ _; trivial
  | cons x rest ih =>
    intro n lo hch hbd hhd
    have h1 : lo ≤ x := hhd x rfl
    have h2 : x ≤ n := hbd x (List.mem_cons_self x rest)
    have hcc := List.chain'_cons'.mp hch
    refine ⟨h1, h2, ?_⟩
    refine ih n (x+1) hcc.2 (fun y hy => hbd y (List.mem_cons_of_mem x hy)) ?_
    intro h3 hh3
    have := hcc.1 h3 hh3
    omega

/-- C7 counterexample: the claim asserts the Pascal identity
`Binomial(n,k) = Binomial(n-1,k-1) + Binomial(n-1,k)` for all `0 ≤ k ≤ n`,
but at `n = 1, k = 0` the term `Binomial(n-1, k-1) = Binomial(0, -1)` is a
fatal precondition violation (the process aborts), so no value exists. -/
theorem binomial_pascal_cex :
    ¬ ((Binomial 1 (1 - 0) = Binomial 1 0) ∧ (Binomial 1 0 = some 1) ∧
       ∃ a b : Int, Binomial (1-1) (0-1) = some a ∧ Binomial (1-1) 0 = some b ∧
         Binomial 1 0 = some (a + b)) := by
  rintro ⟨-, -, a, b, h1, -, -⟩
  simp [Binomial] at h1

/-- C7 (amended): for all `0 ≤ k ≤ n` the C `Binomial` satisfies the
symmetry `Binomial(n,k) = Binomial(n,n-k)` and `Binomial(n,0) = 1`, and the
Pascal identity `Binomial(n,k) = Binomial(n-1,k-1) + Binomial(n-1,k)` holds
whenever `1 ≤ k ≤ n-1` (at `k = 0` and `k = n` one of its two recursive
calls violates `Binomial`'s precondition `n ≥ k ≥ 0` and aborts). -/
theorem binomial_identities (n k : Nat) (hkn : k ≤ n) :
    Binomial (n : Int) ((n : Int) - (k : Int)) = Binomial (n : Int) (k : Int) ∧
    Binomial (n : Int) 0 = some 1 ∧
    (1 ≤ k → k < n →
      ∃ a b : Int, Binomial ((n : Int) - 1) ((k : Int) - 1) = some a ∧
        Binomial ((n : Int) - 1) (k : Int) = some b ∧
        Binomial (n : Int) (k : Int) = some (a + b)) := by
  refine ⟨?_, ?_, ?_⟩
  · have h1 : ((n : Int) - (k : Int)) = ((n - k : Nat) : Int) := by omega
    rw [h1, Binomial_eq_choose n (n-k) (by omega), Binomial_eq_choose n k hkn,
      Nat.choose_symm hkn]
  · have h0 : ((0:Nat) : Int) = (0 : Int) := rfl
    rw [← h0, Binomial_eq_choose n 0 (Nat.zero_le n)]
    simp
  · intro hk1 hkn'
    refine ⟨((n-1).choose (k-1) : Nat), ((n-1).choose k : Nat), ?_, ?_, ?_⟩
    · have e1 : ((n : Int) - 1) = ((n - 1 : Nat) : Int) := by omega
      have e2 : ((k : Int) - 1) = ((k - 1 : Nat) : Int) := by omega
      rw [e1, e2]; exact Binomial_eq_choose (n-1) (k-1) (by omega)
    · have e1 : ((n : Int) - 1) = ((n - 1 : Nat) : Int) := by omega
      rw [e1]; exact Binomial_eq_choose (n-1) k (by omega)
    · rw [Binomial_eq_choose n k hkn]
      have hpascal : n.choose k = (n-1).choose (k-1) + (n-1).choose k := by
        have h := Nat.choose_succ_succ (n-1) (k-1)
        simp only [Nat.succ_eq_add_one] at h
        have hn : (n-1) + 1 = n := by omega
        have hkk : (k-1) + 1 = k := by omega
        rw [hn, hkk] at h
        exact h
      rw [hpascal]
      push_cast
      ring_nf

/-- C7 witness: the amended identities at `n = 5`, `k = 2`. -/
theorem binomial_identities_w :
    (2 ≤ 5) ∧
    (Binomial (5 : Int) ((5 : Int) - (2 : Int)) = Binomial (5 : Int) (2 : Int) ∧
     Binomial (5 : Int) 0 = some 1 ∧
     (1 ≤ 2 → 2 < 5 →
       ∃ a b : Int, Binomial ((5 : Int) - 1) ((2 : Int) - 1) = some a ∧
         Binomial ((5 : Int) - 1) (2 : Int) = some b ∧
         Binomial (5 : Int) (2 : Int) = some (a + b))) := by
  constructor
  · decide
  · exact binomial_identities 5 2 (by decide)

/-- C10: if the very first short representative read has length zero, the
trial loop stops before any checker call, `main` prints `1` (the initial
`result = true`) and exits with status 0 (modelled: `mainRun` returns
`some true`). -/
theorem main_no_trials (fuel n k : Nat) (creps : Nat → Nat → Nat) (adj : List Nat)
    (rest : List (List Nat)) (hk2 : 2 ≤ k) (hkn : k ≤ n) :
    mainRun fuel n k creps adj ([] :: rest) = some true := by
  unfold mainRun
  rw [if_neg (by omega)]
  rfl

/-- C10 witness. -/
theorem main_no_trials_w :
    (2 ≤ 2) ∧ (2 ≤ 2) ∧ mainRun 0 2 2 combOne [] ([] :: []) = some true :=
  ⟨by decide, by decide, main_no_trials 0 2 2 combOne [] [] (by decide) (by decide)⟩

/-- C9: every modelled core error condition — a negative sequence length
given to `IntList`, `n < k` (or `k < 0`) passed to `Binomial` or
`Combinations`, `k < 2` or `k > n` at the input check of `main` — aborts the
computation (modelled as `none`, the fatal `exit(EXIT_FAILURE)` of the
source) rather than producing any partial or recoverable value.  Allocation
failure, also a fatal abort in the source, has no counterpart in a
memoryless embedding. -/
theorem fatal_guards :
    (∀ len : Int, len < 0 → IntList len = none) ∧
    (∀ n k : Int, n < k ∨ k < 0 → Binomial n k = none) ∧
    (∀ n k : Nat, n < k → Combinations n k = none) ∧
    (∀ fuel n k creps adj trials, k < 2 ∨ n < k →
      mainRun fuel n k creps adj trials = none) := by
  refine ⟨?_, ?_, ?_, ?_⟩
  · intro len h; unfold IntList; rw [if_pos h]
  · intro n k h; unfold Binomial; rw [if_pos h]
  · intro n k h; unfold Combinations; rw [if_pos h]
  · intro fuel n k creps adj trials h; unfold mainRun; rw [if_pos h]

/-- C9 witness. -/
theorem fatal_guards_w :
    ((-1 : Int) < 0 ∧ IntList (-1) = none) ∧
    ((1 : Int) < 2 ∧ Binomial 1 2 = none) ∧
    ((1 : Nat) < 2 ∧ Combinations 1 2 = none) ∧
    ((1 : Nat) < 2 ∧ mainRun 0 3 1 combOne [] [] = none) :=
  ⟨⟨by decide, fatal_guards.1 (-1) (by decide)⟩,
   ⟨by decide, fatal_guards.2.1 1 2 (Or.inl (by decide))⟩,
   ⟨by decide, fatal_guards.2.2.1 1 2 (by decide)⟩,
   ⟨by decide, fatal_guards.2.2.2 0 3 1 combOne [] [] (Or.inl (by decide))⟩⟩

/-- C8: loop control of the driver.  (i) A zero-length trial sequence stops
the loop, and the boolean printed is the current `result` — the result of
the last trial processed (`true` if none was).  (ii) A trial whose checker
call returns false stops the loop immediately — later trial sequences are
never read — and `0` is printed.  (iii) A trial whose checker call returns
true continues the loop on the remaining input with `result = true`. -/
theorem driver_loop :
    (∀ fuel n k creps adj comb rest res,
       trialLoop fuel n k creps adj comb ([] :: rest) res = some res) ∧
    (∀ fuel n k creps adj comb (sr : List Nat) rest res A2,
       sr.length ≠ 0 →
       TransversalProperty fuel n k creps adj comb (assignShortrep k sr)
         (fun _ => false) (sr.headD 0) = some (false, A2) →
       trialLoop fuel n k creps adj comb (sr :: rest) res = some false) ∧
    (∀ fuel n k creps adj comb (sr : List Nat) rest res A2,
       sr.length ≠ 0 →
       TransversalProperty fuel n k creps adj comb (assignShortrep k sr)
         (fun _ => false) (sr.headD 0) = some (true, A2) →
       trialLoop fuel n k creps adj comb (sr :: rest) res =
         trialLoop fuel n k creps adj comb rest true) := by
  refine ⟨?_, ?_, ?_⟩
  · intro fuel n k creps adj comb rest res; rfl
  · intro fuel n k creps adj comb sr rest res A2 hlen htp
    show (if sr.length = 0 then some res
          else match TransversalProperty fuel n k creps adj comb (assignShortrep k sr)
                 (fun _ => false) (sr.headD 0) with
               | none => none
               | some (r2, _) =>
                 if r2 then trialLoop fuel n k creps adj comb rest r2 else some r2) = _
    rw [if_neg hlen, htp]
    rfl
  · intro fuel n k creps adj comb sr rest res A2 hlen htp
    show (if sr.length = 0 then some res
          else match TransversalProperty fuel n k creps adj comb (assignShortrep k sr)
                 (fun _ => false) (sr.headD 0) with
               | none => none
               | some (r2, _) =>
                 if r2 then trialLoop fuel n k creps adj comb rest r2 else some r2) = _
    rw [if_neg hlen, htp]
    rfl

/-- C8 witness: instances of all three loop-control equations on concrete
inputs (the second uses a trial on which the checker returns false, the
third a trial on which it returns true). -/
theorem driver_loop_w :
    (trialLoop 0 2 2 combOne [] combOne ([] :: []) true = some true) ∧
    (([1] : List Nat).length ≠ 0 ∧
      trialLoop 1 2 2 combOne [] combOne [[1]] true = some false) ∧
    (([1] : List Nat).length ≠ 0 ∧
      trialLoop 1 4 2 crepsCyc4 [2, 4] combOne [[1], []] true =
        trialLoop 1 4 2 crepsCyc4 [2, 4] combOne [[]] true) :=
  ⟨driver_loop.1 0 2 2 combOne [] combOne [] true,
   ⟨by decide, driver_loop.2.1 1 2 2 combOne [] combOne [1] [] true
      (assignShortrep 2 [1]) (by decide) rfl⟩,
   ⟨by decide, driver_loop.2.2 1 4 2 crepsCyc4 [2, 4] combOne [1] [[]] true
      (assignShortrep 2 [1]) (by decide) rfl⟩⟩

/-- C4 counterexample: the claim reads "if after scanning all adjacency
entries no new forced point was added (its count unchanged from the copied
R), TransversalProperty returns false".  On this input (the orbit of
`{1,2}` under the cyclic group of order 4, partition `P1 = {1}`,
`R = {2,4}`, `newpoint = 1`, which satisfies every documented precondition
of the checker) the scan adds no new forced point — the final count `2`
equals the initial count `2` — yet the checker returns `true`: the source
only returns false when the count is zero (tpexternal.c:223). -/
theorem tp_deadEnd_cex :
    countTrue 4 setR24 = 2 ∧
    adjScanCount (adjScan 4 2 (crepsCyc4 1) combOne partFirst 1
      (countUnder 4 2 partFirst) [2, 4] setR24 (countTrue 4 setR24)) = some 2 ∧
    (TransversalProperty 3 4 2 crepsCyc4 [2, 4] combOne partFirst setR24 1).map
      Prod.fst = some true :=
  ⟨rfl, rfl, rfl⟩

/-- C4 (amended): if after scanning all adjacency entries the working forced
set is empty (`Rnewcount = 0` — no point was added and the copied `R` was
empty), the checker returns false; in particular an empty adjacency list
together with an initially empty `R` makes it return false immediately, for
any `n`, `k` and `newpoint`.  (When the copied `R` was nonempty, an
unchanged count does not make the checker return false.) -/
theorem tp_deadEnd :
    (∀ fuel n k creps adj comb A R np R1,
       adjScan n k (creps np) comb A np (countUnder n k A) adj R (countTrue n R) =
         some (Sum.inl (R1, 0)) →
       TransversalProperty (fuel+1) n k creps adj comb A R np = some (false, A)) ∧
    (∀ fuel n k creps comb A np,
       TransversalProperty (fuel+1) n k creps [] comb A (fun _ => false) np =
         some (false, A)) := by
  have main : ∀ fuel n k creps adj comb A R np R1,
      adjScan n k (creps np) comb A np (countUnder n k A) adj R (countTrue n R) =
        some (Sum.inl (R1, 0)) →
      TransversalProperty (fuel+1) n k creps adj comb A R np = some (false, A) := by
    intro fuel n k creps adj comb A R np R1 hscan
    rw [TP_succ, hscan]
    rfl
  refine ⟨main, ?_⟩
  intro fuel n k creps comb A np
  refine main fuel n k creps [] comb A (fun _ => false) np (fun _ => false) ?_
  show some (Sum.inl ((fun _ => false), countTrue n (fun _ => false))) = _
  have h0 : countTrue n (fun _ => false) = 0 := by
    simp [countTrue, countOn]
  rw [h0]

/-- C4 witness: the amended dead-end rule on a concrete input with a
nonempty adjacency list whose only candidate is non-injective, and the
empty-adjacency instance. -/
theorem tp_deadEnd_w :
    (adjScan 2 2 (crepsCyc4 1) combOne partFirst 1 (countUnder 2 2 partFirst) [1]
       (fun _ => false) (countTrue 2 (fun _ => false)) =
         some (Sum.inl ((fun _ => false), 0)) ∧
     TransversalProperty 1 2 2 crepsCyc4 [1] combOne partFirst (fun _ => false) 1 =
       some (false, partFirst)) ∧
    TransversalProperty 1 3 2 crepsCyc4 [] combOne partFirst (fun _ => false) 1 =
      some (false, partFirst) :=
  ⟨⟨rfl, tp_deadEnd.1 0 2 2 crepsCyc4 [1] combOne partFirst (fun _ => false) 1
      (fun _ => false) rfl⟩,
   tp_deadEnd.2 0 3 2 crepsCyc4 combOne partFirst 1⟩

/-- C3: the early-success rule.  If the adjacency scan, after working through
a prefix `pre` of the adjacency list without returning, reaches an entry `a`
whose candidate k-subset is injective on the parts, whose `kpoint` is not yet
in the working forced set, and for which `(Acount + (Rnewcount+1)) * k >
(k-1) * n`, then the whole checker call returns `true` at that moment — the
remaining adjacency entries `rest` are arbitrary and never examined, and the
partition buffer is returned unchanged.  In particular (second conjunct),
when `A` and `R` already satisfy `(Acount + Rnewcount) * k > (k-1)*n`, the
checker returns true as soon as the first new forced point is added (the
count up to `a` still being the initial `Rnewcount`). -/
theorem tp_earlySuccess :
    (∀ fuel n k creps (comb : Nat → Nat → Nat) A R np (pre : List Nat) (a : Nat)
       (rest : List Nat) R1 c1 kp,
       adjScan n k (creps np) comb A np (countUnder n k A) pre R (countTrue n R) =
         some (Sum.inl (R1, c1)) →
       candScan k A (creps np) (comb a) np = some (some kp) →
       R1 kp = false →
       (countUnder n k A + (c1 + 1)) * k > (k - 1) * n →
       TransversalProperty (fuel+1) n k creps (pre ++ a :: rest) comb A R np =
         some (true, A)) ∧
    (∀ fuel n k creps (comb : Nat → Nat → Nat) A R np (pre : List Nat) (a : Nat)
       (rest : List Nat) R1 kp,
       adjScan n k (creps np) comb A np (countUnder n k A) pre R (countTrue n R) =
         some (Sum.inl (R1, countTrue n R)) →
       candScan k A (creps np) (comb a) np = some (some kp) →
       R1 kp = false →
       (countUnder n k A + countTrue n R) * k > (k - 1) * n →
       TransversalProperty (fuel+1) n k creps (pre ++ a :: rest) comb A R np =
         some (true, A)) := by
  have main : ∀ fuel n k creps (comb : Nat → Nat → Nat) A R np (pre : List Nat) (a : Nat)
      (rest : List Nat) R1 c1 kp,
      adjScan n k (creps np) comb A np (countUnder n k A) pre R (countTrue n R) =
        some (Sum.inl (R1, c1)) →
      candScan k A (creps np) (comb a) np = some (some kp) →
      R1 kp = false →
      (countUnder n k A + (c1 + 1)) * k > (k - 1) * n →
      TransversalProperty (fuel+1) n k creps (pre ++ a :: rest) comb A R np =
        some (true, A) := by
    intro fuel n k creps comb A R np pre a rest R1 c1 kp hpre hcand hkp hgt
    rw [TP_succ, adjScan_append, hpre]
    show (match adjScan n k (creps np) comb A np (countUnder n k A) (a :: rest) R1 c1 with
          | none => none
          | some (Sum.inr b) => some (b, A)
          | some (Sum.inl (Rnew1, cnt1)) =>
            if cnt1 = 0 then some (false, A)
            else
              match (List.range' 1 n).find? (fun i => Rnew1 i) with
              | none => none
              | some r =>
                branchLoopAux
                  (fun A2 R2 np2 => TransversalProperty fuel n k creps (pre ++ a :: rest)
                    comb A2 R2 np2)
                  r k (updf Rnew1 r false) (List.range' 1 (k-1)) A) = some (true, A)
    have hstep : adjScan n k (creps np) comb A np (countUnder n k A) (a :: rest) R1 c1 =
        some (Sum.inr true) := by
      show (match candScan k A (creps np) (comb a) np with
            | none => adjScan n k (creps np) comb A np (countUnder n k A) rest R1 c1
            | some none => none
            | some (some kp2) =>
              if R1 kp2 then adjScan n k (creps np) comb A np (countUnder n k A) rest R1 c1
              else
                if (countUnder n k A + (c1 + 1)) * k > (k - 1) * n then some (Sum.inr true)
                else adjScan n k (creps np) comb A np (countUnder n k A) rest
                  (updf R1 kp2 true) (c1 + 1)) = some (Sum.inr true)
      rw [hcand]
      show (if R1 kp then _ else _) = some (Sum.inr true)
      rw [hkp]
      show (if (countUnder n k A + (c1 + 1)) * k > (k - 1) * n
            then some (Sum.inr true) else _) = some (Sum.inr true)
      rw [if_pos hgt]
    rw [hstep]
  refine ⟨main, ?_⟩
  intro fuel n k creps comb A R np pre a rest R1 kp hpre hcand hkp hgt
  refine main fuel n k creps comb A R np pre a rest R1 (countTrue n R) kp hpre hcand hkp ?_
  have h2 : (countUnder n k A + (countTrue n R + 1)) * k =
      (countUnder n k A + countTrue n R) * k + k := by ring
  calc (k - 1) * n < (countUnder n k A + countTrue n R) * k := hgt
    _ ≤ (countUnder n k A + (countTrue n R + 1)) * k := by
        rw [h2]; exact Nat.le_add_right _ _

/-- C3 witness: concrete instance of the early-success rule (`n = 4`,
`k = 2`, orbit of `{1,2}` under the cyclic group of order 4, with points 1
and 2 in part 1; the candidate at adjacency entry `2` forces point 3 and
`(2 + 1) * 2 > 1 * 4`). -/
theorem tp_earlySuccess_w :
    (adjScan 4 2 (crepsCyc4 2) combOne partTwo 2 (countUnder 4 2 partTwo) []
       (fun _ => false) (countTrue 4 (fun _ => false)) =
         some (Sum.inl ((fun _ => false), 0))) ∧
    (candScan 2 partTwo (crepsCyc4 2) (combOne 2) 2 = some (some 3)) ∧
    ((fun _ => false : Nat → Bool) 3 = false) ∧
    ((countUnder 4 2 partTwo + (0 + 1)) * 2 > (2 - 1) * 4) ∧
    (TransversalProperty 1 4 2 crepsCyc4 ([] ++ 2 :: []) combOne partTwo
       (fun _ => false) 2 = some (true, partTwo)) :=
  ⟨rfl, rfl, rfl, by decide,
   tp_earlySuccess.1 0 4 2 crepsCyc4 combOne partTwo (fun _ => false) 2 [] 2 []
     (fun _ => false) 0 3 rfl rfl rfl (by decide)⟩

/-- C2 counterexample: the claim asserts the partition buffer is restored on
every return, true or false.  On this input (the orbit of `{1,4}` under the
cyclic group of order 6, `P1 = {1}`, empty `R`, `newpoint = 1`, satisfying
every documented precondition of the checker) the call returns `false` and
the buffer entry of point 4 is left at `1`, although it was `2` before the
call: the `return false` of tpexternal.c:248 does not restore `A[r]`. -/
theorem tp_restore_cex :
    (TransversalProperty 3 6 2 crepsCyc6 [4] combOne partFirst (fun _ => false) 1).map
      (fun p => (p.1, p.2 4)) = some (false, 1) ∧
    partFirst 4 = 2 :=
  ⟨rfl, rfl⟩

/-- C2 (amended): whenever a checker call returns `true`, the partition
buffer it hands back is the one it received — every entry the call mutated
has been restored to its pre-call value `k` (given the invariant that the
forced set `R` it receives lies inside part `k`).  When it returns `false`
the buffer may be left mutated (see `tp_restore_cex`): the source returns
false without restoring `A[r]` (tpexternal.c:248), which no caller observes
because both `main` and the recursive branch loop stop using the buffer
after a false result. -/
theorem tp_restores_on_true (fuel n k : Nat) (creps : Nat → Nat → Nat)
    (adj : List Nat) (comb : Nat → Nat → Nat) (A : Nat → Nat) (R : Nat → Bool)
    (np : Nat) (A2 : Nat → Nat)
    (hR : ∀ s, R s = true → A s = k)
    (h : TransversalProperty fuel n k creps adj comb A R np = some (true, A2)) :
    A2 = A :=
  tp_restore_aux fuel n k creps adj comb A R np A2 hR h

/-- C2 witness: a true-returning call on concrete data restores the buffer. -/
theorem tp_restores_on_true_w :
    (∀ s : Nat, (fun _ => false : Nat → Bool) s = true → partTwo s = 2) ∧
    (TransversalProperty 1 4 2 crepsCyc4 [2, 4] combOne partTwo
       (fun _ => false) 2 = some (true, partTwo)) ∧
    partTwo = partTwo :=
  ⟨fun _ hs => Bool.noConfusion hs, rfl,
   tp_restores_on_true 1 4 2 crepsCyc4 [2, 4] combOne partTwo (fun _ => false) 2
     partTwo (fun _ hs => Bool.noConfusion hs) rfl⟩

/-- C6: the checker terminates on every input satisfying its structural
preconditions (`k > 1`, coset images and the combination entries reachable
through the adjacency list are points of `{1,...,n}`, every part label lies
in `{1,...,k}`, the forced set is a subset of part `k` inside `{1,...,n}`,
and `newpoint` is a point with `A[newpoint] < k`), and its call tree has
depth at most `n`: with fuel `n` — one unit per call — the call returns.
Each recursive call moves one forced point out of part `k` into a part
`< k`, so the number of points in parts `1..k-1` grows strictly and is
bounded by `n`.  These hypotheses are weaker than the full documented
precondition of the checker (no size bound, no no-uncovered-witness
condition is needed), so termination holds a fortiori on its legal inputs. -/
theorem tp_terminates (n k : Nat) (creps : Nat → Nat → Nat) (adj : List Nat)
    (comb : Nat → Nat → Nat) (A : Nat → Nat) (R : Nat → Bool) (np : Nat)
    (hk : 2 ≤ k)
    (hcr : ∀ p ∈ List.range' 1 n, ∀ j ∈ List.range' 1 n, creps p j ∈ List.range' 1 n)
    (hcb : ∀ a ∈ adj, ∀ j ∈ List.range' 1 (k-1), comb a j ∈ List.range' 1 n)
    (hA : ∀ i ∈ List.range' 1 n, 1 ≤ A i ∧ A i ≤ k)
    (hRk : ∀ s, R s = true → A s = k)
    (hRn : ∀ s, R s = true → s ∈ List.range' 1 n)
    (hnp : np ∈ List.range' 1 n) (hnpk : A np < k) :
    ∃ b A2, TransversalProperty n n k creps adj comb A R np = some (b, A2) :=
  tp_total n n k creps adj comb A R np hk hcr hcb hA hRk hRn hnp
    (by have := countUnder_pos n k np A hnp hnpk; omega)

/-- C6 witness: a concrete full-precondition input (`n = 4`, `k = 2`, the
orbit of `{1,2}` under the cyclic group of order 4) on which the checker
with fuel `n = 4` returns. -/
theorem tp_terminates_w :
    (2 ≤ 2) ∧
    (∀ p ∈ List.range' 1 4, ∀ j ∈ List.range' 1 4, crepsCyc4 p j ∈ List.range' 1 4) ∧
    (∀ a ∈ [2, 4], ∀ j ∈ List.range' 1 1, combOne a j ∈ List.range' 1 4) ∧
    (∀ i ∈ List.range' 1 4, 1 ≤ partFirst i ∧ partFirst i ≤ 2) ∧
    (1 ∈ List.range' 1 4) ∧ (partFirst 1 < 2) ∧
    (∃ b A2, TransversalProperty 4 4 2 crepsCyc4 [2, 4] combOne partFirst
      (fun _ => false) 1 = some (b, A2)) :=
  ⟨by decide, by decide, by decide, by decide, by decide, by decide,
   tp_terminates 4 2 crepsCyc4 [2, 4] combOne partFirst (fun _ => false) 1
     (by decide) (by decide) (by decide) (by decide)
     (fun _ hs => Bool.noConfusion hs) (fun _ hs => Bool.noConfusion hs)
     (by decide) (by decide)⟩

/-- C5: for every `n ≥ k ≥ 0`, `Combinations n k` succeeds and returns
exactly `Binomial(n,k) = choose n k` lists, each of length `k`, strictly
increasing, with entries in `{1,...,n}`, with no duplicates, collectively
equal to the set of all such lists (i.e. of all k-subsets of `{1,...,n}` in
increasing order), in strictly increasing lexicographic order; for `n = 5`,
`k = 2` the result is the ten listed pairs in that order. -/
theorem combinations_correct (n kk : Nat) (hkn : kk ≤ n) :
    ∃ out, Combinations n kk = some out ∧
      Binomial (n : Int) (kk : Int) = some ((out.length : Nat) : Int) ∧
      out.length = n.choose kk ∧
      out.Nodup ∧
      List.Chain' (List.Lex (· < ·)) out ∧
      (∀ c : List Nat, c ∈ out ↔
        (c.length = kk ∧ List.Chain' (· < ·) c ∧ ∀ x ∈ c, 1 ≤ x ∧ x ≤ n)) ∧
      (n = 5 → kk = 2 → out =
        [[1,2],[1,3],[1,4],[1,5],[2,3],[2,4],[2,5],[3,4],[3,5],[4,5]]) := by
  have hb := Binomial_eq_choose n kk hkn
  have hcomb : Combinations n kk =
      some (combStream n (List.range' 1 kk) (n.choose kk)) := by
    unfold Combinations
    rw [if_neg (by omega), hb]
    simp [Int.toNat_natCast]
  have hfirst : IncB n 1 (List.range' 1 kk) := incB_range' kk 1 n 1 (le_refl 1) (by omega)
  have hflen : (List.range' 1 kk).length = kk := by simp
  have hSmem : ∀ y : List Nat,
      y ∈ List.sublistsLen kk (List.range' 1 n) ↔ (IncB n 1 y ∧ y.length = kk) := by
    intro y
    rw [List.mem_sublistsLen]
    constructor
    · rintro ⟨h1, h2⟩
      exact ⟨sublist_incB y n h1, h2⟩
    · rintro ⟨h1, h2⟩
      refine ⟨?_, h2⟩
      have := incB_sublist y n 1 h1
      simpa using this
  have hSlen : (List.sublistsLen kk (List.range' 1 n)).length = n.choose kk := by
    rw [List.length_sublistsLen]
    simp
  have hSnodup : (List.sublistsLen kk (List.range' 1 n)).Nodup :=
    List.nodup_sublistsLen kk (List.nodup_range' 1 n)
  have hP : List.Chain' (List.Lex (· < ·))
        (combStream n (List.range' 1 kk) (n.choose kk)) ∧
      (∀ z ∈ combStream n (List.range' 1 kk) (n.choose kk),
        IncB n 1 z ∧ z.length = kk) ∧
      (∀ y : List Nat, IncB n 1 y → y.length = kk →
        y ∈ combStream n (List.range' 1 kk) (n.choose kk)) := by
    rcases combStream_chainE (n.choose kk) n kk (List.range' 1 kk) hfirst hflen
      with htop | ⟨hch, hall⟩
    · obtain ⟨j, hj, pre2, heq, hch, hall⟩ :=
        combStream_top_trunc (n.choose kk) n kk (List.range' 1 kk) hfirst hflen htop
      have hcover : ∀ y : List Nat, IncB n 1 y → y.length = kk →
          y ∈ combStream n (List.range' 1 kk) (j+1) := by
        intro y hy hylen
        have hmin : List.range' 1 kk = y ∨ List.Lex (· < ·) (List.range' 1 kk) y := by
          have := range'_lex_min y n 1 hy
          rw [hylen] at this
          exact this
        rcases combStream_cover (j+1) n kk (List.range' 1 kk) y hfirst hflen hy hylen hmin
          with h1 | h1
        · exact h1
        · exfalso
          have htopmem : List.range' (n + 1 - kk) kk ∈
              combStream n (List.range' 1 kk) (j+1) := by
            rw [heq]
            exact List.mem_append_right pre2 (List.mem_cons_self _ _)
          have hlexty := h1 _ htopmem
          have hnot := not_lex_of_max y n 1 hy
          rw [hylen] at hnot
          exact hnot hlexty
      have hsub : (List.sublistsLen kk (List.range' 1 n)).toFinset ⊆
          (combStream n (List.range' 1 kk) (j+1)).toFinset := by
        intro y hy
        rw [List.mem_toFinset] at hy ⊢
        obtain ⟨hy1, hy2⟩ := (hSmem y).mp hy
        exact hcover y hy1 hy2
      have hcard1 : n.choose kk ≤ j + 1 := by
        have h1 := Finset.card_le_card hsub
        rw [List.toFinset_card_of_nodup hSnodup, hSlen] at h1
        have h2 := List.toFinset_card_le (combStream n (List.range' 1 kk) (j+1))
        rw [combStream_length] at h2
        omega
      have hjind : j + 1 = n.choose kk := by omega
      rw [hjind] at hch hall hcover
      exact ⟨hch, hall, hcover⟩
    · have hnd := chain'_lexLt_nodup _ hch
      have hsub : (combStream n (List.range' 1 kk) (n.choose kk)).toFinset ⊆
          (List.sublistsLen kk (List.range' 1 n)).toFinset := by
        intro z hz
        rw [List.mem_toFinset] at hz ⊢
        obtain ⟨hz1, hz2⟩ := hall z hz
        exact (hSmem z).mpr ⟨hz1, hz2⟩
      have hfeq : (combStream n (List.range' 1 kk) (n.choose kk)).toFinset =
          (List.sublistsLen kk (List.range' 1 n)).toFinset := by
        refine Finset.eq_of_subset_of_card_le hsub ?_
        rw [List.toFinset_card_of_nodup hSnodup, hSlen,
          List.toFinset_card_of_nodup hnd, combStream_length]
      refine ⟨hch, hall, ?_⟩
      intro y hy1 hy2
      have hy3 : y ∈ (List.sublistsLen kk (List.range' 1 n)).toFinset := by
        rw [List.mem_toFinset]
        exact (hSmem y).mpr ⟨hy1, hy2⟩
      rw [← hfeq, List.mem_toFinset] at hy3
      exact hy3
  obtain ⟨hch, hall, hcov⟩ := hP
  refine ⟨combStream n (List.range' 1 kk) (n.choose kk), hcomb, ?_, ?_, ?_, ?_, ?_, ?_⟩
  · rw [combStream_length]
    exact hb
  · exact combStream_length _ _ _
  · exact chain'_lexLt_nodup _ hch
  · exact hch
  · intro c
    constructor
    · intro hc
      obtain ⟨h1, h2⟩ := hall c hc
      obtain ⟨h3, h4⟩ := incB_chain c n 1 h1
      exact ⟨h2, h3, h4⟩
    · rintro ⟨h1, h2, h3⟩
      refine hcov c ?_ h1
      refine chain_incB c n 1 h2 (fun x hx => (h3 x hx).2) ?_
      intro h4 hh4
      exact (h3 h4 (List.mem_of_mem_head? hh4)).1
  · intro h5 h2
    subst h5
    subst h2
    have hconc : Combinations 5 2 =
        some [[1,2],[1,3],[1,4],[1,5],[2,3],[2,4],[2,5],[3,4],[3,5],[4,5]] := by rfl
    rw [hcomb] at hconc
    injection hconc

/-- C5 witness: the claim at `n = 5`, `k = 2`. -/
theorem combinations_correct_w :
    (2 ≤ 5) ∧
    (∃ out, Combinations 5 2 = some out ∧
      Binomial (5 : Int) (2 : Int) = some ((out.length : Nat) : Int) ∧
      out.length = Nat.choose 5 2 ∧
      out.Nodup ∧
      List.Chain' (List.Lex (· < ·)) out ∧
      (∀ c : List Nat, c ∈ out ↔
        (c.length = 2 ∧ List.Chain' (· < ·) c ∧ ∀ x ∈ c, 1 ≤ x ∧ x ≤ 5)) ∧
      ((5 : Nat) = 5 → (2 : Nat) = 2 → out =
        [[1,2],[1,3],[1,4],[1,5],[2,3],[2,4],[2,5],[3,4],[3,5],[4,5]])) :=
  ⟨by decide, combinations_correct 5 2 (by decide)⟩

end TPExternal
